import Mathlib

/-!
# Verification of the strategy/metrics core of a simple backtesting program

Shallow embedding of the four strategy functions (`buy_and_hold`,
`moving_average_crossover`, `rsi_strategy`, `bollinger_bands_strategy`) and of
`calculate_performance_metrics` from `backtesting_core.py`, together with
theorems settling the frozen claims about them.

Modelling conventions:
* A price bar is a pair of a date and a close price.  Dates are natural
  numbers: the program formats dates as `%Y-%m-%d` strings of a strictly
  increasing datetime index and sorts trade logs by those strings, and on
  such strings lexicographic order coincides with chronological order, so a
  strictly increasing `Nat` is a faithful stand-in for the sort key.
* Close prices are rationals.  The float values `NaN` produced by warm-up
  rows of `rolling(...).mean()` / `.std()` and by `0/0` are modelled by
  `Option` (`none` = NaN); a comparison against `none` is false, exactly as
  comparisons against NaN are false in pandas.
* `numpy.sqrt` is an opaque real operation with no exact rational
  counterpart; the metrics function therefore takes the square-root function
  as an explicit parameter `sq`, and theorems assume only the properties of
  `sq` they need (such as `sq 0 = 0`).
-/

namespace Backtest

/-- One row of the price series: the trading date (as a sortable key) and the
close price.  Only these two fields of the data frame are read by the core. -/
structure Bar where
  date : Nat
  close : ℚ
deriving DecidableEq, Repr, Inhabited

/-- The `action` field of a trade-log entry. -/
inductive Action where
  | BUY
  | SELL
deriving DecidableEq, Repr, BEq

instance : Inhabited Action := ⟨Action.BUY⟩

/-- One trade-log entry `{"action": ..., "date": ..., "price": ...}`. -/
structure Trade where
  action : Action
  date : Nat
  price : ℚ
deriving DecidableEq, Repr, Inhabited

/-- The `Close` column of the series. -/
def closes (data : List Bar) : List ℚ :=
  data.map Bar.close

/-- Row lookup `data.iloc[i]` (total, with a junk default out of range;
all uses are guarded by index bounds). -/
def barAt (data : List Bar) (i : Nat) : Bar :=
  data.getD i default

/-- Element `l[i]` of a column that may contain NaN; out-of-range and NaN
both read as `none`. -/
def optAt {α : Type} (l : List (Option α)) (i : Nat) : Option α :=
  l.getD i none

/-- `buy_and_hold(data)`: buy at the first close, sell at the last close.
Translated from `backtesting_core.py`.  The program indexes with
`iloc[0]`/`iloc[-1]`, which presupposes a nonempty frame; the embedding
totalises those lookups with `headI`/`getLastI`. -/
def buy_and_hold (data : List Bar) : ℚ × List ℚ × List Trade :=
  let buyPrice := data.headI.close
  let sellPrice := data.getLastI.close
  let buyDate := data.headI.date
  let sellDate := data.getLastI.date
  let returns := (sellPrice - buyPrice) / buyPrice * 100
  let tradeLog : List Trade :=
    [⟨Action.BUY, buyDate, buyPrice⟩, ⟨Action.SELL, sellDate, sellPrice⟩]
  (returns, [buyPrice, sellPrice], tradeLog)

/-- `series.rolling(window=w).mean()`: NaN (`none`) while fewer than `w`
observations are available, afterwards the arithmetic mean of the last `w`
values. -/
def rollingMean (w : Nat) (xs : List ℚ) : List (Option ℚ) :=
  (List.range xs.length).map fun i =>
    if i + 1 < w then none
    else some (((xs.take (i + 1)).drop (i + 1 - w)).sum / w)

/-- `series.rolling(window=w).std()` squared: the sample variance
(`ddof=1`) of the last `w` values, NaN (`none`) during the warm-up and — as
in pandas — for `w = 1`, where the `ddof=1` denominator is zero.  The
program only ever uses the standard deviation inside band comparisons, which
the embedding renders exactly from the variance (see `bbLeLower`). -/
def rollingVar (w : Nat) (xs : List ℚ) : List (Option ℚ) :=
  (List.range xs.length).map fun i =>
    if i + 1 < w ∨ w < 2 then none
    else
      let win := (xs.take (i + 1)).drop (i + 1 - w)
      let m := win.sum / w
      some ((win.map fun x => (x - m) ^ 2).sum / ((w : ℚ) - 1))

/-- `a > b` on float columns: false whenever either side is NaN. -/
def optGt (a b : Option ℚ) : Bool :=
  match a, b with
  | some x, some y => decide (y < x)
  | _, _ => false

/-- `column.diff()` on an integer signal column: NaN at index 0, the
difference to the previous row afterwards. -/
def diffI (l : List Int) : List (Option Int) :=
  match l with
  | [] => []
  | x :: r => none :: List.zipWith (fun a b => some (a - b)) r (x :: r)

/-- `data[data['positions'] == v].index`: the row positions whose positions
value equals `v`, in ascending order. -/
def signalIdxs (v : Int) (ps : List (Option Int)) : List Nat :=
  (ps.enum.filter fun p => p.2 = some v).map Prod.fst

/-- The loop appending one trade-log entry per signal index, reading the
close price of that row (`data.loc[idx, 'Close']`; the defensive
scalar-unwrap in the source always yields that close). -/
def mkTrades (a : Action) (data : List Bar) (idxs : List Nat) : List Trade :=
  idxs.map fun i => ⟨a, (barAt data i).date, (barAt data i).close⟩

/-- Stable insertion of a trade into a date-sorted log: the new entry goes
in front of the first entry whose date is not smaller, so entries inserted
from the left keep their original order among equal dates — the behaviour
of Python's stable `sorted(..., key=lambda x: x['date'])`. -/
def insertTrade (t : Trade) : List Trade → List Trade
  | [] => [t]
  | h :: r => if t.date ≤ h.date then t :: h :: r else h :: insertTrade t r

/-- `sorted(trade_log, key=lambda x: x['date'])` as a stable insertion
sort. -/
def sortTradeLog : List Trade → List Trade
  | [] => []
  | t :: r => insertTrade t (sortTradeLog r)

/-- The block shared verbatim by the three signal-driven strategies:
`positions = signal.diff()`, extract the indices where positions equals
`vb` (BUY) and `vs` (SELL), log a trade per index, sort the log by date,
and return `0` with the partial log when either side is empty, otherwise
the percent change from the close at the first BUY index to the close at
the last SELL index. -/
def runPosStrategy (vb vs : Int) (data : List Bar) (signal : List Int) :
    ℚ × List ℚ × List Trade :=
  let positions := diffI signal
  let buySignals := signalIdxs vb positions
  let sellSignals := signalIdxs vs positions
  let tradeLog :=
    sortTradeLog (mkTrades Action.BUY data buySignals ++
      mkTrades Action.SELL data sellSignals)
  if buySignals = [] ∨ sellSignals = [] then (0, [], tradeLog)
  else
    let buyPrice := (barAt data buySignals.headI).close
    let sellPrice := (barAt data sellSignals.getLastI).close
    ((sellPrice - buyPrice) / buyPrice * 100, [buyPrice, sellPrice], tradeLog)

/-- The signal column of `moving_average_crossover`: a column of zeros whose
slice from row `short_window` on is overwritten with
`(short_ma[short_window:] > long_ma[short_window:]).astype(int)`. -/
def macSignal (sw lw : Nat) (cl : List ℚ) : List Int :=
  let shortMa := rollingMean sw cl
  let longMa := rollingMean lw cl
  let cmp := (List.range cl.length).map fun i =>
    if optGt (optAt shortMa i) (optAt longMa i) then (1 : Int) else 0
  (List.replicate cl.length (0 : Int)).take sw ++ cmp.drop sw

/-- `moving_average_crossover(data, short_window, long_window)`: BUY where
the signal diff is `1`, SELL where it is `-1`. -/
def moving_average_crossover (sw lw : Nat) (data : List Bar) :
    ℚ × List ℚ × List Trade :=
  runPosStrategy 1 (-1) data (macSignal sw lw (closes data))

/-- `delta = close.diff()` followed by `delta.where(delta > 0, 0)`: the
leading NaN compares false against 0 and is replaced by `0`, positive deltas
are kept, the rest zeroed. -/
def gainsInput (cl : List ℚ) : List ℚ :=
  match cl with
  | [] => []
  | x :: r => 0 :: List.zipWith (fun a b => if b < a then a - b else 0) r (x :: r)

/-- `(-delta.where(delta < 0, 0))`: the leading NaN becomes `0`, negative
deltas are kept and negated, the rest zeroed. -/
def lossesInput (cl : List ℚ) : List ℚ :=
  match cl with
  | [] => []
  | x :: r => 0 :: List.zipWith (fun a b => if a < b then b - a else 0) r (x :: r)

/-- `RSI = 100 - 100/(1 + gain/loss)` under float semantics, for the
nonnegative `gain`/`loss` rolling means produced by the pipeline: NaN when
either rolling mean is still NaN; `loss = 0` gives `rs = ±inf` when
`gain ≠ 0`, hence `RSI = 100 - 100/inf = 100`, and `rs = 0/0 = NaN` when
`gain = 0`. -/
def rsiAt (gain loss : Option ℚ) : Option ℚ :=
  match gain, loss with
  | some g, some l =>
      if l = 0 then (if g = 0 then none else some 100)
      else some (100 - 100 / (1 + g / l))
  | _, _ => none

/-- The `RSI` column of `rsi_strategy`. -/
def rsiList (p : Nat) (cl : List ℚ) : List (Option ℚ) :=
  let gain := rollingMean p (gainsInput cl)
  let loss := rollingMean p (lossesInput cl)
  (List.range cl.length).map fun i => rsiAt (optAt gain i) (optAt loss i)

/-- The signal column of `rsi_strategy`: zeros, overwritten with `1` where
`RSI < 30` and with `-1` where `RSI > 70` (disjoint conditions; NaN
satisfies neither). -/
def rsiSignal (p : Nat) (cl : List ℚ) : List Int :=
  (rsiList p cl).map fun o =>
    match o with
    | none => 0
    | some r => if 70 < r then -1 else if r < 30 then 1 else 0

/-- `rsi_strategy(data, rsi_period)`: BUY where the signal diff is `2`,
SELL where it is `-2`. -/
def rsi_strategy (p : Nat) (data : List Bar) : ℚ × List ℚ × List Trade :=
  runPosStrategy 2 (-2) data (rsiSignal p (closes data))

/-- A row of the Bollinger frame surviving
`dropna(subset=['Close', 'Lower', 'Upper'])`: its bar together with the
(defined) rolling mean and rolling variance at that row.  `Lower`/`Upper`
are NaN exactly when `MA` or `STD` is, and `STD` is NaN exactly when the
variance is, so keeping the rows with a defined variance is the dropna of
the source (closes themselves are never NaN in the model). -/
structure BBRow where
  bar : Bar
  ma : ℚ
  var : ℚ
deriving DecidableEq, Repr

/-- The rows of the Bollinger frame left after `dropna`. -/
def bbRows (w : Nat) (data : List Bar) : List BBRow :=
  let cl := closes data
  let ma := rollingMean w cl
  let vr := rollingVar w cl
  (List.range data.length).filterMap fun i =>
    match optAt ma i, optAt vr i with
    | some m, some v => some ⟨barAt data i, m, v⟩
    | _, _ => none

/-- `close ≤ Lower`, i.e. `close ≤ MA - num_std * STD`, rendered exactly
over ℚ: for `num_std = k ≥ 0` and `STD = √var` this is equivalent to
`MA - close ≥ 0 ∧ (MA - close)² ≥ k² · var`. -/
def bbLeLower (k c m v : ℚ) : Bool :=
  decide (0 ≤ m - c ∧ k ^ 2 * v ≤ (m - c) ^ 2)

/-- `close ≥ Upper`, i.e. `close ≥ MA + num_std * STD`, rendered exactly
over ℚ as `close - MA ≥ 0 ∧ (close - MA)² ≥ k² · var` (for `k ≥ 0`). -/
def bbGeUpper (k c m v : ℚ) : Bool :=
  decide (0 ≤ c - m ∧ k ^ 2 * v ≤ (c - m) ^ 2)

/-- The signal column of `bollinger_bands_strategy` over the surviving
rows: zeros, overwritten with `1` where `close ≤ Lower`, then with `-1`
where `close ≥ Upper` (so the SELL assignment wins when both hold, e.g. on
a zero-variance window with `close = MA`). -/
def bbSignal (k : ℚ) (rows : List BBRow) : List Int :=
  rows.map fun r =>
    if bbGeUpper k r.bar.close r.ma r.var then -1
    else if bbLeLower k r.bar.close r.ma r.var then 1
    else 0

/-- `bollinger_bands_strategy(data, window, num_std)`.  The guards of the
source in order: fewer rows than `window` → `(0, [], [])`; the
`required_cols` membership test (always true — `Close` is given and
`Lower`/`Upper` were just assigned) and the `except KeyError` branch are
dead code; an empty frame after `dropna` → `(0, [], [])`; otherwise the
shared ±2 position pipeline over the surviving rows. -/
def bollinger_bands_strategy (w : Nat) (k : ℚ) (data : List Bar) :
    ℚ × List ℚ × List Trade :=
  if data.length < w then (0, [], [])
  else
    let rows := bbRows w data
    if rows = [] then (0, [], [])
    else runPosStrategy 2 (-2) (rows.map BBRow.bar) (bbSignal k rows)

/-- Float values as they flow out of `calculate_performance_metrics`:
a plain (rational) value, NaN, or a signed infinity. -/
inductive FV where
  | val (q : ℚ)
  | nan
  | pinf
  | ninf
deriving DecidableEq, Repr

/-- `close.pct_change().dropna()`: the relative change to the previous row;
`dropna` removes the leading NaN.  Faithful for positive closes (the data
model's invariant); a zero previous close would produce a float ±inf or NaN
outside this model. -/
def pctChanges (cl : List ℚ) : List ℚ :=
  match cl with
  | [] => []
  | x :: r => List.zipWith (fun a b => (a - b) / b) r (x :: r)

/-- `series.mean()`: NaN on an empty series. -/
def metricMean (xs : List ℚ) : Option ℚ :=
  if xs = [] then none else some (xs.sum / xs.length)

/-- The square of `series.std()` (sample variance, `ddof=1`): NaN with
fewer than two observations. -/
def sampleVar (xs : List ℚ) : Option ℚ :=
  if xs.length < 2 then none
  else some ((xs.map fun x => (x - xs.sum / xs.length) ^ 2).sum / ((xs.length : ℚ) - 1))

/-- `series.cumprod()` with running accumulator `acc`. -/
def cumprodFrom (acc : ℚ) : List ℚ → List ℚ
  | [] => []
  | y :: r => acc * y :: cumprodFrom (acc * y) r

/-- `(1 + daily_returns).cumprod()`: the equity curve. -/
def equityCurve (rs : List ℚ) : List ℚ :=
  cumprodFrom 1 (rs.map fun r => 1 + r)

/-- `series.cummax()` with running accumulator `cur`. -/
def cummaxFrom (cur : ℚ) : List ℚ → List ℚ
  | [] => []
  | y :: r => max cur y :: cummaxFrom (max cur y) r

/-- `series.cummax()`. -/
def cummax (l : List ℚ) : List ℚ :=
  match l with
  | [] => []
  | x :: r => x :: cummaxFrom x r

/-- `series.min()`: NaN on an empty series. -/
def listMin : List ℚ → Option ℚ
  | [] => none
  | x :: r => some ((listMin r).elim x (min x))

/-- `calculate_performance_metrics(data)` returning
`(volatility, sharpe_ratio, max_drawdown)`.  `sq` is the square-root
function (`numpy.sqrt`), passed explicitly because it has no exact rational
counterpart; the float `std` is `sq` of the sample variance.  The Sharpe
division `mean/std` follows float semantics at `std = 0`: `0/0 = NaN`,
`±m/0 = ±inf`. -/
def calculate_performance_metrics (sq : ℚ → ℚ) (data : List Bar) :
    FV × FV × FV :=
  let daily := pctChanges (closes data)
  let volatility : FV :=
    match sampleVar daily with
    | none => FV.nan
    | some v => FV.val (sq v * sq 252 * 100)
  let sharpe : FV :=
    match metricMean daily, sampleVar daily with
    | some m, some v =>
        if sq v = 0 then
          (if m = 0 then FV.nan else if 0 < m then FV.pinf else FV.ninf)
        else FV.val (m / sq v * sq 252)
    | _, _ => FV.nan
  let equity := equityCurve daily
  let rollMax := cummax equity
  let drawdown := List.zipWith (fun e r => (e - r) / r) equity rollMax
  let maxDrawdown : FV :=
    match listMin drawdown with
    | none => FV.nan
    | some q => FV.val (q * 100)
  (volatility, sharpe, maxDrawdown)

/-- A concrete square-root stand-in used only to instantiate closed
statements; every fact proved with it depends only on `sq 0 = 0`, or (for
the length-2 counterexample) on nothing about `sq` at all. -/
def sqZero : ℚ → ℚ := fun _ => 0

/-- Does a trade log alternate actions, starting with `a`? -/
def alternatesFrom (a : Action) : List Trade → Bool
  | [] => true
  | t :: r => t.action == a && alternatesFrom (match a with
      | Action.BUY => Action.SELL
      | Action.SELL => Action.BUY) r

/-- Number of entries with a given action in a trade log. -/
def countAct (a : Action) (l : List Trade) : Nat :=
  l.countP fun t => t.action == a

/-- The boolean series `short_ma > long_ma` at row `i`. -/
def maGt (sw lw : Nat) (cl : List ℚ) (i : Nat) : Bool :=
  optGt (optAt (rollingMean sw cl) i) (optAt (rollingMean lw cl) i)

/-- The number of sign changes of the boolean series `short_ma > long_ma`
restricted to the rows from `short_window` onward (adjacent flips within
that range), the reading of C9's count that the code does not satisfy. -/
def maGtChangesWithin (sw lw : Nat) (cl : List ℚ) : Nat :=
  (List.range cl.length).countP fun i =>
    decide (sw < i) && (maGt sw lw cl i != maGt sw lw cl (i - 1))

/-- The number of sign changes of `short_ma > long_ma` where the change at
index `i ≥ max(short_window, 1)` is measured against the previous row's
actual comparison value — the other natural reading of C9's count, which
the code does not satisfy either. -/
def maGtChangesFrom (sw lw : Nat) (cl : List ℚ) : Nat :=
  (List.range cl.length).countP fun i =>
    decide (sw ≤ i) && decide (1 ≤ i) &&
      (maGt sw lw cl i != maGt sw lw cl (i - 1))

/-- Specification-side recursion: the positions (from `i` on, with previous
signal value `prev`) whose signal difference equals `v`, in index order. -/
def idxWalk (v : Int) : Int → Nat → List Int → List Nat
  | _, _, [] => []
  | prev, i, x :: r => (if x - prev = v then [i] else []) ++ idxWalk v x (i + 1) r

/-- Specification-side recursion: the trades with action `a` emitted, in
chronological order, at the rows whose signal difference equals `v`. -/
def walkOne (a : Action) (v : Int) : Int → List (Bar × Int) → List Trade
  | _, [] => []
  | prev, (b, x) :: r =>
      (if x - prev = v then [⟨a, b.date, b.close⟩] else []) ++ walkOne a v x r

/-- Specification-side recursion: the full chronological trade sequence of
the ±1 pipeline — a BUY where the signal rises by 1, a SELL where it falls
by 1. -/
def walkTrades : Int → List (Bar × Int) → List Trade
  | _, [] => []
  | prev, (b, x) :: r =>
      (if x - prev = 1 then [⟨Action.BUY, b.date, b.close⟩]
       else if x - prev = -1 then [⟨Action.SELL, b.date, b.close⟩]
       else []) ++ walkTrades x r

/-- Merge of two date-sorted trade logs, taking from the left on ties —
the order a stable sort gives two sorted runs. -/
def mergeT : List Trade → List Trade → List Trade
  | [], ys => ys
  | xs, [] => xs
  | x :: xs, y :: ys =>
      if x.date ≤ y.date then x :: mergeT xs (y :: ys)
      else y :: mergeT (x :: xs) ys
termination_by a b => a.length + b.length

end Backtest

namespace Backtest

/-- `headI` of a nonempty list is its `head`. -/
theorem headI_eq_head {α : Type} [Inhabited α] (l : List α) (h : l ≠ []) :
    l.headI = l.head h := by
  cases l with
  | nil => exact absurd rfl h
  | cons a t => rfl

/-- `getLastI` of a nonempty list is its `getLast`. -/
theorem getLastI_eq_getLast {α : Type} [Inhabited α] (l : List α) (h : l ≠ []) :
    l.getLastI = l.getLast h := by
  cases l with
  | nil => exact absurd rfl h
  | cons a t => simp [List.getLastI_eq_getLast?, List.getLast?_eq_getLast _ h]

/-- Length of the rolling-mean column. -/
theorem rollingMean_length (w : Nat) (xs : List ℚ) :
    (rollingMean w xs).length = xs.length := by
  simp [rollingMean]

/-- Length of the MA-crossover signal column. -/
theorem macSignal_length (sw lw : Nat) (cl : List ℚ) :
    (macSignal sw lw cl).length = cl.length := by
  simp only [macSignal, List.length_append, List.length_take, List.length_drop,
    List.length_replicate, List.length_map, List.length_range]
  omega

/-- Pointwise value of the MA-crossover signal column: `0` before row
`short_window`, the comparison bit from row `short_window` on. -/
theorem macSignal_getElem? (sw lw : Nat) (cl : List ℚ) (i : Nat)
    (hi : i < cl.length) :
    (macSignal sw lw cl)[i]? =
      some (if i < sw then 0
        else if optGt (optAt (rollingMean sw cl) i)
          (optAt (rollingMean lw cl) i) then 1 else 0) := by
  unfold macSignal
  rw [List.getElem?_append]
  simp only [List.length_take, List.length_replicate]
  by_cases hsw : i < sw
  · rw [if_pos (by omega), List.getElem?_take, if_pos hsw,
      List.getElem?_replicate, if_pos hi, if_pos hsw]
  · rw [if_neg (by omega), List.getElem?_drop, List.getElem?_map]
    have hmin : min sw cl.length = sw := by omega
    rw [hmin]
    have harith : sw + (i - sw) = i := by omega
    rw [harith, List.getElem?_range hi]
    simp [hsw]

/-- Every entry of the MA-crossover signal column is `0` or `1`. -/
theorem macSignal_mem_range (sw lw : Nat) (cl : List ℚ) (x : Int)
    (hx : x ∈ macSignal sw lw cl) : x = 0 ∨ x = 1 := by
  obtain ⟨i, hi, hget⟩ := List.getElem_of_mem hx
  have hlt : i < cl.length := by
    have := macSignal_length sw lw cl
    omega
  have h2 := macSignal_getElem? sw lw cl i hlt
  rw [List.getElem?_eq_getElem hi, hget] at h2
  by_cases hsw : i < sw
  · simp [hsw] at h2
    exact Or.inl h2
  · simp [hsw] at h2
    by_cases hgt : optGt (optAt (rollingMean sw cl) i) (optAt (rollingMean lw cl) i)
    · simp [hgt] at h2
      exact Or.inr h2
    · simp [hgt] at h2
      exact Or.inl h2

/-- Unfolding of the NaN-aware comparison. -/
theorem optGt_iff (a b : Option ℚ) :
    optGt a b = true ↔ ∃ x y, a = some x ∧ b = some y ∧ y < x := by
  cases a with
  | none => simp [optGt]
  | some x =>
    cases b with
    | none => simp [optGt]
    | some y => simp [optGt]

/-- C4. In `moving_average_crossover`, the per-day signal is `0` at every
index strictly before `short_window` (regardless of `long_window` or NaN
moving averages), and at every index ≥ `short_window` it is `1` exactly
when both moving averages are defined and `short_ma > long_ma` there — a
comparison against NaN yields the signal `0`. -/
theorem mac_signal_spec (sw lw : Nat) (cl : List ℚ) (i : Nat)
    (hi : i < cl.length) :
    (i < sw → (macSignal sw lw cl).getD i 0 = 0) ∧
    (sw ≤ i →
      ((macSignal sw lw cl).getD i 0 = 1 ↔
        ∃ a b, optAt (rollingMean sw cl) i = some a ∧
          optAt (rollingMean lw cl) i = some b ∧ b < a) ∧
      ((macSignal sw lw cl).getD i 0 = 0 ↔
        ¬ ∃ a b, optAt (rollingMean sw cl) i = some a ∧
          optAt (rollingMean lw cl) i = some b ∧ b < a)) := by
  have hget := macSignal_getElem? sw lw cl i hi
  rw [List.getD_eq_getElem?_getD, hget]
  constructor
  · intro hsw
    simp [hsw]
  · intro hsw
    rw [if_neg (by omega)]
    by_cases hgt : optGt (optAt (rollingMean sw cl) i) (optAt (rollingMean lw cl) i)
    · rw [if_pos hgt]
      have hex := (optGt_iff _ _).mp hgt
      exact ⟨⟨fun _ => hex, fun _ => rfl⟩,
        ⟨fun h => absurd (show (1 : Int) = 0 from h) (by norm_num),
         fun h => absurd hex h⟩⟩
    · rw [if_neg hgt]
      have hnex : ¬ ∃ a b, optAt (rollingMean sw cl) i = some a ∧
          optAt (rollingMean lw cl) i = some b ∧ b < a := by
        intro hex
        exact hgt ((optGt_iff _ _).mpr hex)
      exact ⟨⟨fun h => absurd (show (0 : Int) = 1 from h) (by norm_num),
         fun hex => absurd hex hnex⟩,
        ⟨fun _ => hnex, fun _ => rfl⟩⟩

/-- Witness for C4: with `short_window = 1`, `long_window = 2` and closes
`[1, 2, 3]`, the signal is forced to `0` at index 0 and is `1` at index 1,
where `short_ma = 2 > 3/2 = long_ma`. -/
theorem mac_signal_spec_witness :
    (macSignal 1 2 [1, 2, 3]).getD 0 0 = 0 ∧
    (macSignal 1 2 [1, 2, 3]).getD 1 0 = 1 := by
  refine ⟨(mac_signal_spec 1 2 [1, 2, 3] 0 (by norm_num)).1 (by norm_num), ?_⟩
  refine (((mac_signal_spec 1 2 [1, 2, 3] 1 (by norm_num)).2 (by norm_num)).1).mpr ?_
  exact ⟨2, 3 / 2, by norm_num [rollingMean, optAt], by norm_num [rollingMean, optAt],
    by norm_num⟩

/-- Membership in the extracted signal-index list: exactly the positions
whose (defined) positions value is `v`. -/
theorem mem_signalIdxs (v : Int) (ps : List (Option Int)) (i : Nat) :
    i ∈ signalIdxs v ps ↔ ps[i]? = some (some v) := by
  unfold signalIdxs
  constructor
  · intro hmem
    obtain ⟨q, hq, hqi⟩ := List.mem_map.mp hmem
    obtain ⟨henum, hval⟩ := List.mem_filter.mp hq
    have hv : q.2 = some v := by simpa using hval
    have := List.mem_enum_iff_getElem?.mp henum
    rw [hqi] at this
    rw [this, hv]
  · intro hget
    refine List.mem_map.mpr ⟨(i, some v), List.mem_filter.mpr ⟨?_, by simp⟩, rfl⟩
    exact List.mk_mem_enum_iff_getElem?.mpr hget

/-- Pointwise value of the positions column `signal.diff()`. -/
theorem diffI_getElem? (s : List Int) (i : Nat) :
    (diffI s)[i]? =
      if i < s.length then
        (if i = 0 then some none
         else some (some (s.getD i 0 - s.getD (i - 1) 0)))
      else none := by
  cases s with
  | nil => simp [diffI]
  | cons x r =>
    cases i with
    | zero => simp [diffI]
    | succ j =>
      simp only [diffI, List.getElem?_cons_succ, List.getElem?_zipWith]
      by_cases hj : j < r.length
      · have hj2 : j < (x :: r).length := by simp; omega
        rw [List.getElem?_eq_getElem hj, List.getElem?_eq_getElem hj2]
        have h1 : (x :: r).getD (j + 1) 0 = r[j] := by
          rw [List.getD_eq_getElem?_getD, List.getElem?_cons_succ,
            List.getElem?_eq_getElem hj]
          rfl
        have h2 : (x :: r).getD (j + 1 - 1) 0 = (x :: r)[j] := by
          rw [List.getD_eq_getElem?_getD]
          simp only [Nat.add_sub_cancel]
          rw [List.getElem?_eq_getElem hj2]
          rfl
        rw [if_pos (by simp; omega), if_neg (by omega), h1, h2]
      · rw [List.getElem?_eq_none (by omega : r.length ≤ j)]
        rw [if_neg (by simp; omega)]

/-- An in-range `getD` hits an element of the list. -/
theorem getD_mem_of_lt {α : Type} (l : List α) (i : Nat) (d : α)
    (h : i < l.length) : l.getD i d ∈ l := by
  rw [List.getD_eq_getElem?_getD, List.getElem?_eq_getElem h]
  exact List.getElem_mem h

/-- Membership in the BUY/SELL index list of the shared pipeline: exactly
the positions `i ≥ 1` where the first difference of the signal is `v`. -/
theorem mem_signalIdxs_diffI (v : Int) (s : List Int) (i : Nat) :
    i ∈ signalIdxs v (diffI s) ↔
      1 ≤ i ∧ i < s.length ∧ s.getD i 0 - s.getD (i - 1) 0 = v := by
  rw [mem_signalIdxs, diffI_getElem?]
  by_cases hi : i < s.length
  · rw [if_pos hi]
    by_cases h0 : i = 0
    · subst h0
      simp
    · rw [if_neg h0]
      constructor
      · intro h
        simp only [Option.some.injEq] at h
        exact ⟨by omega, hi, h⟩
      · intro ⟨h1, h2, h3⟩
        rw [h3]
  · rw [if_neg hi]
    simp
    omega

/-- If every signal value is `0` or `1`, no first difference reaches `±2`,
so the ±2 pipeline extracts no BUY and no SELL index. -/
theorem signalIdxs_diffI_nil_of01 (s : List Int)
    (h : ∀ x ∈ s, x = 0 ∨ x = 1) :
    signalIdxs 2 (diffI s) = [] ∧ signalIdxs (-2) (diffI s) = [] := by
  constructor <;>
  · rw [List.eq_nil_iff_forall_not_mem]
    intro i hmem
    obtain ⟨h1, h2, h3⟩ := (mem_signalIdxs_diffI _ s i).mp hmem
    have ha := h (s.getD i 0) (getD_mem_of_lt s i 0 h2)
    have hb := h (s.getD (i - 1) 0) (getD_mem_of_lt s (i - 1) 0 (by omega))
    omega

/-- The ±2 pipeline with no BUY and no SELL index returns `(0, [], [])`. -/
theorem runPosStrategy_of_nil (vb vs : Int) (data : List Bar) (s : List Int)
    (hb : signalIdxs vb (diffI s) = []) (hs : signalIdxs vs (diffI s) = []) :
    runPosStrategy vb vs data s = (0, [], []) := by
  simp only [runPosStrategy]
  rw [hb, hs]
  simp [mkTrades, sortTradeLog]

/-- C2. In `rsi_strategy` and `bollinger_bands_strategy`, a BUY index is
extracted exactly where the first difference of the signal equals `2` and a
SELL index exactly where it equals `-2`; consequently, whenever the signal
path stays within `{0, 1}` (e.g. a `0, 1, 0` wobble, whose differences are
`1` and `-1`), no trade event fires and the strategy returns `(0, [], [])`. -/
theorem rsi_bollinger_events_spec (p w : Nat) (k : ℚ) (data : List Bar) :
    (∀ i, i ∈ signalIdxs 2 (diffI (rsiSignal p (closes data))) ↔
      1 ≤ i ∧ i < (rsiSignal p (closes data)).length ∧
        (rsiSignal p (closes data)).getD i 0 -
          (rsiSignal p (closes data)).getD (i - 1) 0 = 2) ∧
    (∀ i, i ∈ signalIdxs (-2) (diffI (rsiSignal p (closes data))) ↔
      1 ≤ i ∧ i < (rsiSignal p (closes data)).length ∧
        (rsiSignal p (closes data)).getD i 0 -
          (rsiSignal p (closes data)).getD (i - 1) 0 = -2) ∧
    ((∀ x ∈ rsiSignal p (closes data), x = 0 ∨ x = 1) →
      rsi_strategy p data = (0, [], [])) ∧
    (∀ i, i ∈ signalIdxs 2 (diffI (bbSignal k (bbRows w data))) ↔
      1 ≤ i ∧ i < (bbSignal k (bbRows w data)).length ∧
        (bbSignal k (bbRows w data)).getD i 0 -
          (bbSignal k (bbRows w data)).getD (i - 1) 0 = 2) ∧
    (∀ i, i ∈ signalIdxs (-2) (diffI (bbSignal k (bbRows w data))) ↔
      1 ≤ i ∧ i < (bbSignal k (bbRows w data)).length ∧
        (bbSignal k (bbRows w data)).getD i 0 -
          (bbSignal k (bbRows w data)).getD (i - 1) 0 = -2) ∧
    ((∀ x ∈ bbSignal k (bbRows w data), x = 0 ∨ x = 1) →
      bollinger_bands_strategy w k data = (0, [], [])) := by
  refine ⟨fun i => mem_signalIdxs_diffI 2 _ i,
    fun i => mem_signalIdxs_diffI (-2) _ i, ?_,
    fun i => mem_signalIdxs_diffI 2 _ i,
    fun i => mem_signalIdxs_diffI (-2) _ i, ?_⟩
  · intro h01
    obtain ⟨hb, hs⟩ := signalIdxs_diffI_nil_of01 _ h01
    exact runPosStrategy_of_nil 2 (-2) data _ hb hs
  · intro h01
    obtain ⟨hb, hs⟩ := signalIdxs_diffI_nil_of01 _ h01
    unfold bollinger_bands_strategy
    by_cases hlen : data.length < w
    · rw [if_pos hlen]
    · rw [if_neg hlen]
      by_cases hrows : bbRows w data = []
      · simp [hrows]
      · simp only [if_neg hrows]
        exact runPosStrategy_of_nil 2 (-2) _ _ hb hs

/-- Witness for C2: RSI with period 1 on closes `[10, 9, 9]` produces the
signal wobble `[0, 1, 0]` and fires zero trades, and Bollinger with window
6 and 2 standard deviations on closes `[11, 10, 10, 10, 10, 10, 9, 10]`
produces the signal wobble `[0, 1, 0]` over the surviving rows and fires
zero trades. -/
theorem rsi_bollinger_events_spec_witness :
    rsiSignal 1 (closes [⟨0, 10⟩, ⟨1, 9⟩, ⟨2, 9⟩]) = [0, 1, 0] ∧
    rsi_strategy 1 [⟨0, 10⟩, ⟨1, 9⟩, ⟨2, 9⟩] = (0, [], []) ∧
    bbSignal 2 (bbRows 6
      [⟨0, 11⟩, ⟨1, 10⟩, ⟨2, 10⟩, ⟨3, 10⟩, ⟨4, 10⟩, ⟨5, 10⟩, ⟨6, 9⟩, ⟨7, 10⟩]) =
      [0, 1, 0] ∧
    bollinger_bands_strategy 6 2
      [⟨0, 11⟩, ⟨1, 10⟩, ⟨2, 10⟩, ⟨3, 10⟩, ⟨4, 10⟩, ⟨5, 10⟩, ⟨6, 9⟩, ⟨7, 10⟩] =
      (0, [], []) := by
  have hr : rsiSignal 1 (closes [⟨0, 10⟩, ⟨1, 9⟩, ⟨2, 9⟩]) = [0, 1, 0] := by
    norm_num [rsiSignal, rsiList, rsiAt, rollingMean, gainsInput, lossesInput,
      optAt, closes, show List.range 3 = [0, 1, 2] from rfl]
  have hbb : bbSignal 2 (bbRows 6
      [⟨0, 11⟩, ⟨1, 10⟩, ⟨2, 10⟩, ⟨3, 10⟩, ⟨4, 10⟩, ⟨5, 10⟩, ⟨6, 9⟩, ⟨7, 10⟩]) =
      [0, 1, 0] := by
    norm_num [bbSignal, bbRows, bbLeLower, bbGeUpper, rollingMean, rollingVar,
      optAt, closes, barAt, List.filterMap_cons,
      show List.range 8 = [0, 1, 2, 3, 4, 5, 6, 7] from rfl]
  refine ⟨hr, ?_, hbb, ?_⟩
  · exact (rsi_bollinger_events_spec 1 6 2 [⟨0, 10⟩, ⟨1, 9⟩, ⟨2, 9⟩]).2.2.1
      (by rw [hr]; decide)
  · exact (rsi_bollinger_events_spec 1 6 2
      [⟨0, 11⟩, ⟨1, 10⟩, ⟨2, 10⟩, ⟨3, 10⟩, ⟨4, 10⟩, ⟨5, 10⟩, ⟨6, 9⟩, ⟨7, 10⟩]).2.2.2.2.2
      (by rw [hbb]; decide)

/-- Reading a map over `List.range` at an in-range index. -/
theorem optAt_map_range {α : Type} (f : Nat → Option α) (n i : Nat)
    (h : i < n) : optAt ((List.range n).map f) i = f i := by
  rw [optAt, List.getD_eq_getElem?_getD, List.getElem?_map, List.getElem?_range h]
  rfl

/-- With fewer rows than the window every variance entry is NaN, so
`dropna` removes every row. -/
theorem bbRows_nil_of_lt (w : Nat) (data : List Bar) (h : data.length < w) :
    bbRows w data = [] := by
  simp only [bbRows]
  rw [List.filterMap_eq_nil_iff]
  intro i hi
  have hi2 : i < data.length := List.mem_range.mp hi
  have hvar : optAt (rollingVar w (closes data)) i = none := by
    rw [rollingVar, optAt_map_range _ _ _ (by simp [closes]; omega)]
    rw [if_pos (Or.inl (by simp [closes] at *; omega))]
  rw [hvar]
  cases optAt (rollingMean w (closes data)) i <;> rfl

/-- `bollinger_bands_strategy` after resolving the length guard against the
emptiness of the surviving rows. -/
theorem bollinger_eq_run (w : Nat) (k : ℚ) (data : List Bar) :
    bollinger_bands_strategy w k data =
      if bbRows w data = [] then (0, [], [])
      else runPosStrategy 2 (-2) ((bbRows w data).map BBRow.bar)
        (bbSignal k (bbRows w data)) := by
  unfold bollinger_bands_strategy
  by_cases hlen : data.length < w
  · rw [if_pos hlen, if_pos (bbRows_nil_of_lt w data hlen)]
  · rw [if_neg hlen]

/-- The shared pipeline when one signal side is empty: `0` return, no
prices, and whatever partial trade log was built. -/
theorem runPosStrategy_empty (vb vs : Int) (data : List Bar) (s : List Int)
    (h : signalIdxs vb (diffI s) = [] ∨ signalIdxs vs (diffI s) = []) :
    runPosStrategy vb vs data s =
      (0, [], sortTradeLog
        (mkTrades Action.BUY data (signalIdxs vb (diffI s)) ++
         mkTrades Action.SELL data (signalIdxs vs (diffI s)))) := by
  simp only [runPosStrategy]
  rw [if_pos h]

/-- The shared pipeline when both signal sides are nonempty: the percent
change from the close at the first BUY index to the close at the last SELL
index, together with the full sorted trade log. -/
theorem runPosStrategy_pos (vb vs : Int) (data : List Bar) (s : List Int)
    (hb : signalIdxs vb (diffI s) ≠ []) (hs : signalIdxs vs (diffI s) ≠ []) :
    runPosStrategy vb vs data s =
      (((barAt data ((signalIdxs vs (diffI s)).getLast hs)).close -
          (barAt data ((signalIdxs vb (diffI s)).head hb)).close) /
          (barAt data ((signalIdxs vb (diffI s)).head hb)).close * 100,
       [(barAt data ((signalIdxs vb (diffI s)).head hb)).close,
        (barAt data ((signalIdxs vs (diffI s)).getLast hs)).close],
       sortTradeLog
         (mkTrades Action.BUY data (signalIdxs vb (diffI s)) ++
          mkTrades Action.SELL data (signalIdxs vs (diffI s)))) := by
  simp only [runPosStrategy]
  rw [if_neg (not_or.mpr ⟨hb, hs⟩), headI_eq_head _ hb, getLastI_eq_getLast _ hs]

/-- C3. For `moving_average_crossover`, `rsi_strategy` and
`bollinger_bands_strategy`: whenever the extracted BUY indices or the
extracted SELL indices are empty, the function returns a 0% return with no
trade prices and whatever partial (sorted) trade log was built — possibly
non-empty on one side; otherwise the return is the percent change from the
close at the first BUY index to the close at the last SELL index. -/
theorem strategy_returns_spec (sw lw p w : Nat) (k : ℚ) (data : List Bar) :
    ((signalIdxs 1 (diffI (macSignal sw lw (closes data))) = [] ∨
      signalIdxs (-1) (diffI (macSignal sw lw (closes data))) = []) →
      moving_average_crossover sw lw data =
        (0, [], sortTradeLog
          (mkTrades Action.BUY data
            (signalIdxs 1 (diffI (macSignal sw lw (closes data)))) ++
           mkTrades Action.SELL data
            (signalIdxs (-1) (diffI (macSignal sw lw (closes data))))))) ∧
    (∀ (hb : signalIdxs 1 (diffI (macSignal sw lw (closes data))) ≠ [])
       (hs : signalIdxs (-1) (diffI (macSignal sw lw (closes data))) ≠ []),
      moving_average_crossover sw lw data =
        (((barAt data
             ((signalIdxs (-1) (diffI (macSignal sw lw (closes data)))).getLast hs)).close -
          (barAt data
             ((signalIdxs 1 (diffI (macSignal sw lw (closes data)))).head hb)).close) /
          (barAt data
             ((signalIdxs 1 (diffI (macSignal sw lw (closes data)))).head hb)).close * 100,
         [(barAt data
             ((signalIdxs 1 (diffI (macSignal sw lw (closes data)))).head hb)).close,
          (barAt data
             ((signalIdxs (-1) (diffI (macSignal sw lw (closes data)))).getLast hs)).close],
         sortTradeLog
           (mkTrades Action.BUY data
             (signalIdxs 1 (diffI (macSignal sw lw (closes data)))) ++
            mkTrades Action.SELL data
             (signalIdxs (-1) (diffI (macSignal sw lw (closes data))))))) ∧
    ((signalIdxs 2 (diffI (rsiSignal p (closes data))) = [] ∨
      signalIdxs (-2) (diffI (rsiSignal p (closes data))) = []) →
      rsi_strategy p data =
        (0, [], sortTradeLog
          (mkTrades Action.BUY data
            (signalIdxs 2 (diffI (rsiSignal p (closes data)))) ++
           mkTrades Action.SELL data
            (signalIdxs (-2) (diffI (rsiSignal p (closes data))))))) ∧
    (∀ (hb : signalIdxs 2 (diffI (rsiSignal p (closes data))) ≠ [])
       (hs : signalIdxs (-2) (diffI (rsiSignal p (closes data))) ≠ []),
      rsi_strategy p data =
        (((barAt data
             ((signalIdxs (-2) (diffI (rsiSignal p (closes data)))).getLast hs)).close -
          (barAt data
             ((signalIdxs 2 (diffI (rsiSignal p (closes data)))).head hb)).close) /
          (barAt data
             ((signalIdxs 2 (diffI (rsiSignal p (closes data)))).head hb)).close * 100,
         [(barAt data
             ((signalIdxs 2 (diffI (rsiSignal p (closes data)))).head hb)).close,
          (barAt data
             ((signalIdxs (-2) (diffI (rsiSignal p (closes data)))).getLast hs)).close],
         sortTradeLog
           (mkTrades Action.BUY data
             (signalIdxs 2 (diffI (rsiSignal p (closes data)))) ++
            mkTrades Action.SELL data
             (signalIdxs (-2) (diffI (rsiSignal p (closes data))))))) ∧
    ((signalIdxs 2 (diffI (bbSignal k (bbRows w data))) = [] ∨
      signalIdxs (-2) (diffI (bbSignal k (bbRows w data))) = []) →
      bollinger_bands_strategy w k data =
        (0, [], sortTradeLog
          (mkTrades Action.BUY ((bbRows w data).map BBRow.bar)
            (signalIdxs 2 (diffI (bbSignal k (bbRows w data)))) ++
           mkTrades Action.SELL ((bbRows w data).map BBRow.bar)
            (signalIdxs (-2) (diffI (bbSignal k (bbRows w data))))))) ∧
    (∀ (hb : signalIdxs 2 (diffI (bbSignal k (bbRows w data))) ≠ [])
       (hs : signalIdxs (-2) (diffI (bbSignal k (bbRows w data))) ≠ []),
      bollinger_bands_strategy w k data =
        (((barAt ((bbRows w data).map BBRow.bar)
             ((signalIdxs (-2) (diffI (bbSignal k (bbRows w data)))).getLast hs)).close -
          (barAt ((bbRows w data).map BBRow.bar)
             ((signalIdxs 2 (diffI (bbSignal k (bbRows w data)))).head hb)).close) /
          (barAt ((bbRows w data).map BBRow.bar)
             ((signalIdxs 2 (diffI (bbSignal k (bbRows w data)))).head hb)).close * 100,
         [(barAt ((bbRows w data).map BBRow.bar)
             ((signalIdxs 2 (diffI (bbSignal k (bbRows w data)))).head hb)).close,
          (barAt ((bbRows w data).map BBRow.bar)
             ((signalIdxs (-2) (diffI (bbSignal k (bbRows w data)))).getLast hs)).close],
         sortTradeLog
           (mkTrades Action.BUY ((bbRows w data).map BBRow.bar)
             (signalIdxs 2 (diffI (bbSignal k (bbRows w data)))) ++
            mkTrades Action.SELL ((bbRows w data).map BBRow.bar)
             (signalIdxs (-2) (diffI (bbSignal k (bbRows w data))))))) := by
  refine ⟨runPosStrategy_empty 1 (-1) data _,
    runPosStrategy_pos 1 (-1) data _, runPosStrategy_empty 2 (-2) data _,
    runPosStrategy_pos 2 (-2) data _, ?_, ?_⟩
  · intro h
    rw [bollinger_eq_run]
    by_cases hrows : bbRows w data = []
    · rw [if_pos hrows]
      simp [hrows, bbSignal, diffI, signalIdxs, mkTrades, sortTradeLog]
    · rw [if_neg hrows]
      exact runPosStrategy_empty 2 (-2) _ _ h
  · intro hb hs
    rw [bollinger_eq_run]
    by_cases hrows : bbRows w data = []
    · exact absurd (by simp [hrows, bbSignal, diffI, signalIdxs]) hb
    · rw [if_neg hrows]
      exact runPosStrategy_pos 2 (-2) _ _ hb hs

/-- Witness for C3: the MA crossover on closes `[1, 2, 3]` with windows
1/2 has a BUY but no SELL, so it returns 0% with the one-sided log, and RSI
with period 1 on closes `[10, 11, 10, 12]` has a BUY at index 2 and a SELL
at index 3, so it returns `(12 - 10)/10 × 100 = 20`%. -/
theorem strategy_returns_spec_witness :
    moving_average_crossover 1 2 [⟨0, 1⟩, ⟨1, 2⟩, ⟨2, 3⟩] =
      (0, [], [⟨Action.BUY, 1, 2⟩]) ∧
    rsi_strategy 1 [⟨0, 10⟩, ⟨1, 11⟩, ⟨2, 10⟩, ⟨3, 12⟩] =
      (20, [10, 12], [⟨Action.BUY, 2, 10⟩, ⟨Action.SELL, 3, 12⟩]) := by
  have hmb : signalIdxs 1 (diffI (macSignal 1 2 (closes [⟨0, 1⟩, ⟨1, 2⟩, ⟨2, 3⟩]))) =
      [1] := by
    norm_num [macSignal, rollingMean, optGt, optAt, closes, diffI, signalIdxs,
      List.enum, List.enumFrom, show List.range 3 = [0, 1, 2] from rfl] ; simp
  have hms : signalIdxs (-1) (diffI (macSignal 1 2 (closes [⟨0, 1⟩, ⟨1, 2⟩, ⟨2, 3⟩]))) =
      [] := by
    norm_num [macSignal, rollingMean, optGt, optAt, closes, diffI, signalIdxs,
      List.enum, List.enumFrom, show List.range 3 = [0, 1, 2] from rfl] ; simp
  have hrsig : rsiSignal 1 (closes [⟨0, 10⟩, ⟨1, 11⟩, ⟨2, 10⟩, ⟨3, 12⟩]) =
      [0, -1, 1, -1] := by
    norm_num [rsiSignal, rsiList, rsiAt, rollingMean, gainsInput, lossesInput,
      optAt, closes, show List.range 4 = [0, 1, 2, 3] from rfl]
  have hrb : signalIdxs 2 (diffI (rsiSignal 1 (closes [⟨0, 10⟩, ⟨1, 11⟩, ⟨2, 10⟩, ⟨3, 12⟩]))) =
      [2] := by
    rw [hrsig]
    norm_num [diffI, signalIdxs, List.enum, List.enumFrom] ; simp
  have hrs : signalIdxs (-2) (diffI (rsiSignal 1 (closes [⟨0, 10⟩, ⟨1, 11⟩, ⟨2, 10⟩, ⟨3, 12⟩]))) =
      [3] := by
    rw [hrsig]
    norm_num [diffI, signalIdxs, List.enum, List.enumFrom] ; simp
  constructor
  · have h := (strategy_returns_spec 1 2 1 1 1 [⟨0, 1⟩, ⟨1, 2⟩, ⟨2, 3⟩]).1
      (Or.inr hms)
    rw [h, hmb, hms]
    norm_num [mkTrades, sortTradeLog, insertTrade, barAt]
  · have h := ((strategy_returns_spec 1 2 1 1 1
      [⟨0, 10⟩, ⟨1, 11⟩, ⟨2, 10⟩, ⟨3, 12⟩]).2.2.2.1)
      (by rw [hrb]; simp) (by rw [hrs]; simp)
    rw [h]
    simp only [hrb, hrs]
    norm_num [mkTrades, sortTradeLog, insertTrade, barAt, List.head, List.getLast]

/-- C6. `bollinger_bands_strategy` returns `(0, [], [])` for every series
with fewer rows than the window, and for every series whose rows are all
dropped by the NaN filter (the missing-column guard of the source is dead
code: `Close` is part of the series and `Lower`/`Upper` are assigned right
above the check).  In particular `window = 20` on a 10-row series. -/
theorem bollinger_guard_spec (w : Nat) (k : ℚ) (data : List Bar)
    (h : data.length < w ∨ bbRows w data = []) :
    bollinger_bands_strategy w k data = (0, [], []) := by
  rcases h with h | h
  · unfold bollinger_bands_strategy
    rw [if_pos h]
  · rw [bollinger_eq_run, if_pos h]

/-- Witness for C6: Bollinger with `window = 20` on a 10-row series returns
`(0, [], [])`. -/
theorem bollinger_guard_spec_witness :
    bollinger_bands_strategy 20 2
      [⟨0, 1⟩, ⟨1, 2⟩, ⟨2, 3⟩, ⟨3, 4⟩, ⟨4, 5⟩, ⟨5, 6⟩, ⟨6, 7⟩, ⟨7, 8⟩, ⟨8, 9⟩, ⟨9, 10⟩] =
      (0, [], []) :=
  bollinger_guard_spec 20 2 _ (Or.inl (by decide))

/-- A defined (`some`) column entry lies within the column. -/
theorem optAt_lt_length {α : Type} (l : List (Option α)) (i : Nat) (x : α)
    (h : optAt l i = some x) : i < l.length := by
  by_contra hn
  rw [optAt, List.getD_eq_getElem?_getD, List.getElem?_eq_none (by omega)] at h
  simp at h

/-- In-range `optAt` as a `getElem?`. -/
theorem optAt_getElem? {α : Type} (l : List (Option α)) (i : Nat)
    (h : i < l.length) : l[i]? = some (optAt l i) := by
  rw [optAt, List.getD_eq_getElem?_getD, List.getElem?_eq_getElem h]
  rfl

/-- The gains column has one entry per bar. -/
theorem gainsInput_length (cl : List ℚ) : (gainsInput cl).length = cl.length := by
  cases cl with
  | nil => rfl
  | cons x r => simp [gainsInput]

/-- The losses column has one entry per bar. -/
theorem lossesInput_length (cl : List ℚ) : (lossesInput cl).length = cl.length := by
  cases cl with
  | nil => rfl
  | cons x r => simp [lossesInput]

/-- The RSI signal column at an in-range index, as a function of the RSI
column. -/
theorem rsiSignal_getD (p : Nat) (cl : List ℚ) (i : Nat) (h : i < cl.length) :
    (rsiSignal p cl).getD i 0 =
      match optAt (rsiList p cl) i with
      | none => 0
      | some r => if 70 < r then -1 else if r < 30 then 1 else 0 := by
  have hlen : i < (rsiList p cl).length := by
    simp [rsiList]
    omega
  rw [rsiSignal, List.getD_eq_getElem?_getD, List.getElem?_map,
    optAt_getElem? _ _ hlen]
  rfl

/-- C5 (amended).  In `rsi_strategy`, at an index where the rolling mean of
losses is `0`, the RSI is NaN — and hence contributes signal `0` — exactly
when the rolling mean of gains is also `0` there; when the gain mean is
nonzero, `rs = gain/0` is infinite under float semantics, the RSI equals
`100`, and the index gets the SELL signal `-1` rather than no signal. -/
theorem rsi_loss_zero_spec (p : Nat) (cl : List ℚ) (i : Nat)
    (hl : optAt (rollingMean p (lossesInput cl)) i = some 0) :
    (optAt (rollingMean p (gainsInput cl)) i = some 0 →
      optAt (rsiList p cl) i = none ∧ (rsiSignal p cl).getD i 0 = 0) ∧
    (∀ g, optAt (rollingMean p (gainsInput cl)) i = some g → g ≠ 0 →
      optAt (rsiList p cl) i = some 100 ∧ (rsiSignal p cl).getD i 0 = -1) := by
  have hlen : i < cl.length := by
    have := optAt_lt_length _ _ _ hl
    rw [rollingMean_length, lossesInput_length] at this
    exact this
  have hrsi : optAt (rsiList p cl) i =
      rsiAt (optAt (rollingMean p (gainsInput cl)) i)
        (optAt (rollingMean p (lossesInput cl)) i) := by
    rw [rsiList, optAt_map_range _ _ _ hlen]
  constructor
  · intro hg
    have h1 : optAt (rsiList p cl) i = none := by
      rw [hrsi, hg, hl, rsiAt]
      simp
    exact ⟨h1, by rw [rsiSignal_getD p cl i hlen, h1]⟩
  · intro g hg hgne
    have h1 : optAt (rsiList p cl) i = some 100 := by
      rw [hrsi, hg, hl, rsiAt]
      simp [hgne]
    refine ⟨h1, ?_⟩
    rw [rsiSignal_getD p cl i hlen, h1]
    norm_num

/-- Counterexample to C5 as stated: RSI with period 2 on closes `[1, 2, 3]`
has a zero rolling loss mean at index 1, yet the RSI there is `100` (not
NaN) and the signal is `-1` (a SELL signal), not `0`. -/
theorem rsi_loss_zero_counterexample :
    optAt (rollingMean 2 (lossesInput (closes [⟨0, 1⟩, ⟨1, 2⟩, ⟨2, 3⟩]))) 1 =
      some 0 ∧
    optAt (rsiList 2 (closes [⟨0, 1⟩, ⟨1, 2⟩, ⟨2, 3⟩])) 1 = some 100 ∧
    (rsiSignal 2 (closes [⟨0, 1⟩, ⟨1, 2⟩, ⟨2, 3⟩])).getD 1 0 = -1 := by
  refine ⟨?_, ?_, ?_⟩ <;>
    norm_num [rsiSignal, rsiList, rsiAt, rollingMean, gainsInput, lossesInput,
      optAt, closes, show List.range 3 = [0, 1, 2] from rfl]

/-- Witness for C5 (amended): with period 1 on constant closes `[2, 2]`,
index 1 has loss mean 0 and gain mean 0, so RSI is NaN and the signal is 0;
with period 2 on closes `[1, 2, 3]`, index 1 has loss mean 0 and gain mean
`1/2 ≠ 0`, so RSI is 100 and the signal is `-1`. -/
theorem rsi_loss_zero_spec_witness :
    (optAt (rsiList 1 (closes [⟨0, 2⟩, ⟨1, 2⟩])) 1 = none ∧
      (rsiSignal 1 (closes [⟨0, 2⟩, ⟨1, 2⟩])).getD 1 0 = 0) ∧
    (optAt (rsiList 2 (closes [⟨0, 1⟩, ⟨1, 2⟩, ⟨2, 3⟩])) 1 = some 100 ∧
      (rsiSignal 2 (closes [⟨0, 1⟩, ⟨1, 2⟩, ⟨2, 3⟩])).getD 1 0 = -1) := by
  constructor
  · exact (rsi_loss_zero_spec 1 (closes [⟨0, 2⟩, ⟨1, 2⟩]) 1
      (by norm_num [rollingMean, lossesInput, optAt, closes,
        show List.range 2 = [0, 1] from rfl])).1
      (by norm_num [rollingMean, gainsInput, optAt, closes,
        show List.range 2 = [0, 1] from rfl])
  · exact (rsi_loss_zero_spec 2 (closes [⟨0, 1⟩, ⟨1, 2⟩, ⟨2, 3⟩]) 1
      (by norm_num [rollingMean, lossesInput, optAt, closes,
        show List.range 3 = [0, 1, 2] from rfl])).2 (1 / 2)
      (by norm_num [rollingMean, gainsInput, optAt, closes,
        show List.range 3 = [0, 1, 2] from rfl])
      (by norm_num)

/-- The close column of a constant-price series. -/
theorem closes_const (c : ℚ) : ∀ (data : List Bar),
    (∀ b ∈ data, b.close = c) →
    closes data = List.replicate data.length c
  | [], _ => rfl
  | b :: t, h => by
      have hb : b.close = c := h b (List.mem_cons_self b t)
      have ht := closes_const c t fun x hx => h x (List.mem_cons_of_mem b hx)
      simp only [closes, List.map_cons, List.length_cons, List.replicate_succ, hb]
      simpa [closes] using ht

/-- Percent changes along a constant tail are all zero. -/
theorem pctChanges_zip_const (c : ℚ) : ∀ (m : Nat),
    List.zipWith (fun a b => (a - b) / b) (List.replicate m c)
      (c :: List.replicate m c) = List.replicate m 0
  | 0 => rfl
  | m + 1 => by
      have ih := pctChanges_zip_const c m
      simp only [List.replicate_succ, List.zipWith_cons_cons]
      rw [show List.zipWith (fun a b => (a - b) / b) (List.replicate m c)
          (c :: List.replicate m c) = List.replicate m 0 from ih]
      norm_num

/-- Percent changes of a constant-price series are all zero. -/
theorem pctChanges_replicate (c : ℚ) (n : Nat) :
    pctChanges (List.replicate n c) = List.replicate (n - 1) 0 := by
  cases n with
  | zero => rfl
  | succ m =>
      simp only [List.replicate_succ, pctChanges, Nat.add_sub_cancel]
      exact pctChanges_zip_const c m

/-- The sample variance of at least two zero observations is zero. -/
theorem sampleVar_replicate_zero (m : Nat) (hm : 2 ≤ m) :
    sampleVar (List.replicate m (0 : ℚ)) = some 0 := by
  rw [sampleVar, if_neg (by simp; omega)]
  simp

/-- The mean of a nonempty list of zero observations is zero. -/
theorem metricMean_replicate_zero (m : Nat) (hm : 1 ≤ m) :
    metricMean (List.replicate m (0 : ℚ)) = some 0 := by
  rw [metricMean, if_neg (by simp; omega)]
  simp

/-- C7 (amended).  `calculate_performance_metrics` is total: every numeric
edge case lands in a sentinel (`FV.nan`, `FV.pinf`, `FV.ninf`) instead of
an exception.  For a constant positive-price series of length ≥ 3 it
returns volatility `0` and the NaN sentinel for the Sharpe ratio; for a
constant series of length exactly 2 the single daily return makes the
`ddof=1` standard deviation itself NaN, so the volatility is the NaN
sentinel as well (not `0`), and the Sharpe ratio is NaN. -/
theorem metrics_constant_spec (sq : ℚ → ℚ) (hsq : sq 0 = 0) (data : List Bar)
    (c : ℚ) (_hc : 0 < c) (hconst : ∀ b ∈ data, b.close = c) :
    (3 ≤ data.length →
      (calculate_performance_metrics sq data).1 = FV.val 0 ∧
      (calculate_performance_metrics sq data).2.1 = FV.nan) ∧
    (data.length = 2 →
      (calculate_performance_metrics sq data).1 = FV.nan ∧
      (calculate_performance_metrics sq data).2.1 = FV.nan) := by
  have hdaily : pctChanges (closes data) = List.replicate (data.length - 1) 0 := by
    rw [closes_const c data hconst, pctChanges_replicate]
  constructor
  · intro hlen
    have hvar := sampleVar_replicate_zero (data.length - 1) (by omega)
    have hmean := metricMean_replicate_zero (data.length - 1) (by omega)
    constructor
    · simp only [calculate_performance_metrics, hdaily, hvar]
      rw [hsq]
      norm_num
    · simp only [calculate_performance_metrics, hdaily, hvar, hmean, hsq]
      norm_num
  · intro hlen
    have hvar : sampleVar (List.replicate (data.length - 1) (0 : ℚ)) = none := by
      rw [sampleVar, if_pos (by simp; omega)]
    constructor
    · simp only [calculate_performance_metrics, hdaily, hvar]
    · simp only [calculate_performance_metrics, hdaily, hvar]
      cases metricMean (List.replicate (data.length - 1) (0 : ℚ)) <;> rfl

/-- Counterexample to C7 as stated: the constant length-2 series with close
5 has exactly one daily return, whose `ddof=1` standard deviation is NaN in
pandas, so the volatility comes out as the NaN sentinel and not as `0`. -/
theorem metrics_constant_counterexample :
    (calculate_performance_metrics sqZero [⟨0, 5⟩, ⟨1, 5⟩]).1 = FV.nan ∧
    (calculate_performance_metrics sqZero [⟨0, 5⟩, ⟨1, 5⟩]).1 ≠ FV.val 0 := by
  have h : (calculate_performance_metrics sqZero [⟨0, 5⟩, ⟨1, 5⟩]).1 = FV.nan := by
    norm_num [calculate_performance_metrics, pctChanges, closes, sampleVar]
  exact ⟨h, by rw [h]; exact fun hfalse => FV.noConfusion hfalse⟩

/-- Witness for C7 (amended): the constant series `[3, 3, 3]` yields
volatility `0` and Sharpe NaN, and the constant series `[5, 5]` yields the
NaN sentinel for both. -/
theorem metrics_constant_spec_witness :
    ((calculate_performance_metrics sqZero [⟨0, 3⟩, ⟨1, 3⟩, ⟨2, 3⟩]).1 = FV.val 0 ∧
     (calculate_performance_metrics sqZero [⟨0, 3⟩, ⟨1, 3⟩, ⟨2, 3⟩]).2.1 = FV.nan) ∧
    ((calculate_performance_metrics sqZero [⟨0, 5⟩, ⟨1, 5⟩]).1 = FV.nan ∧
     (calculate_performance_metrics sqZero [⟨0, 5⟩, ⟨1, 5⟩]).2.1 = FV.nan) := by
  constructor
  · exact (metrics_constant_spec sqZero rfl [⟨0, 3⟩, ⟨1, 3⟩, ⟨2, 3⟩] 3 (by norm_num)
      (by rintro b hb; simp [List.mem_cons] at hb; rcases hb with rfl | rfl | rfl <;> rfl)).1
      (by norm_num)
  · exact (metrics_constant_spec sqZero rfl [⟨0, 5⟩, ⟨1, 5⟩] 5 (by norm_num)
      (by rintro b hb; simp [List.mem_cons] at hb; rcases hb with rfl | rfl <;> rfl)).2
      (by norm_num)

/-- A running product of positive factors from a positive start stays
positive. -/
theorem cumprodFrom_pos : ∀ (l : List ℚ) (acc : ℚ), 0 < acc →
    (∀ x ∈ l, 0 < x) → ∀ y ∈ cumprodFrom acc l, 0 < y
  | [], _, _, _, y, hy => absurd hy (List.not_mem_nil y)
  | x :: t, acc, hacc, hl, y, hy => by
      have hx : 0 < x := hl x (List.mem_cons_self x t)
      have hax : 0 < acc * x := mul_pos hacc hx
      rcases List.mem_cons.mp hy with rfl | hy2
      · exact hax
      · exact cumprodFrom_pos t (acc * x) hax
          (fun z hz => hl z (List.mem_cons_of_mem x hz)) y hy2

/-- The running product has one entry per factor. -/
theorem cumprodFrom_length : ∀ (l : List ℚ) (acc : ℚ),
    (cumprodFrom acc l).length = l.length
  | [], _ => rfl
  | x :: t, acc => by simp [cumprodFrom, cumprodFrom_length t]

/-- The minimum of a nonempty series is one of its entries. -/
theorem listMin_mem : ∀ (l : List ℚ) (q : ℚ), listMin l = some q → q ∈ l
  | [], q, h => by simp [listMin] at h
  | x :: t, q, h => by
      simp only [listMin] at h
      cases ht : listMin t with
      | none =>
          rw [ht] at h
          simp only [Option.elim, Option.some.injEq] at h
          simp [← h]
      | some m =>
          rw [ht] at h
          simp only [Option.elim, Option.some.injEq] at h
          rcases min_choice x m with hmin | hmin
          · rw [hmin] at h
            simp [← h]
          · rw [hmin] at h
            exact List.mem_cons_of_mem x (h ▸ listMin_mem t m ht)

/-- The minimum of a series bounds every entry from below. -/
theorem listMin_le : ∀ (l : List ℚ) (q : ℚ), listMin l = some q →
    ∀ d ∈ l, q ≤ d
  | [], _, _, d, hd => absurd hd (List.not_mem_nil d)
  | x :: t, q, h, d, hd => by
      simp only [listMin] at h
      cases ht : listMin t with
      | none =>
          have htn : t = [] := by
            cases t with
            | nil => rfl
            | cons y r => simp [listMin] at ht
          rw [ht] at h
          simp only [Option.elim, Option.some.injEq] at h
          subst htn
          rcases List.mem_cons.mp hd with rfl | hd2
          · exact le_of_eq h.symm
          · exact absurd hd2 (List.not_mem_nil d)
      | some m =>
          rw [ht] at h
          simp only [Option.elim, Option.some.injEq] at h
          rcases List.mem_cons.mp hd with rfl | hd2
          · exact h ▸ min_le_left _ m
          · exact le_trans (h ▸ min_le_right x m) (listMin_le t m ht d hd2)

/-- Every drawdown entry against the running maximum is nonpositive when
the equity entries and the running maximum are positive. -/
theorem drawdown_nonpos : ∀ (l : List ℚ) (cur : ℚ), 0 < cur →
    (∀ x ∈ l, 0 < x) →
    ∀ d ∈ List.zipWith (fun e r => (e - r) / r) l (cummaxFrom cur l), d ≤ 0
  | [], _, _, _, d, hd => absurd hd (List.not_mem_nil d)
  | y :: t, cur, hcur, hl, d, hd => by
      have hy : 0 < y := hl y (List.mem_cons_self y t)
      have hmax : 0 < max cur y := lt_max_of_lt_left hcur
      simp only [cummaxFrom, List.zipWith_cons_cons] at hd
      rcases List.mem_cons.mp hd with rfl | hd2
      · exact div_nonpos_of_nonpos_of_nonneg
          (sub_nonpos.mpr (le_max_right cur y)) (le_of_lt hmax)
      · exact drawdown_nonpos t (max cur y) hmax
          (fun z hz => hl z (List.mem_cons_of_mem y hz)) d hd2

/-- The drawdown entries are all zero exactly when the equity tail never
falls below the running maximum, i.e. forms an ascending chain. -/
theorem drawdown_zero_iff_chain : ∀ (l : List ℚ) (cur : ℚ), 0 < cur →
    (∀ x ∈ l, 0 < x) →
    ((∀ d ∈ List.zipWith (fun e r => (e - r) / r) l (cummaxFrom cur l), d = 0) ↔
      List.Chain (· ≤ ·) cur l)
  | [], _, _, _ => by simp
  | y :: t, cur, hcur, hl => by
      have hy : 0 < y := hl y (List.mem_cons_self y t)
      have hmax : 0 < max cur y := lt_max_of_lt_left hcur
      have ht : ∀ z ∈ t, 0 < z := fun z hz => hl z (List.mem_cons_of_mem y hz)
      have ih := drawdown_zero_iff_chain t y hy ht
      simp only [cummaxFrom, List.zipWith_cons_cons, List.mem_cons, List.chain_cons,
        forall_eq_or_imp]
      constructor
      · intro ⟨hhead, htail⟩
        have hnum : y - max cur y = 0 := by
          rcases div_eq_zero_iff.mp hhead with h0 | h0
          · exact h0
          · exact absurd h0 (ne_of_gt hmax)
        have hmaxy : max cur y = y := (sub_eq_zero.mp hnum).symm
        refine ⟨?_, ?_⟩
        · calc cur ≤ max cur y := le_max_left cur y
            _ = y := hmaxy
        · rw [hmaxy] at htail
          exact ih.mp htail
      · intro ⟨hcy, hchain⟩
        have hmaxy : max cur y = y := max_eq_right hcy
        refine ⟨?_, ?_⟩
        · rw [hmaxy, sub_self, zero_div]
        · rw [hmaxy]
          exact ih.mpr hchain

/-- The daily-return series has one entry less than the series. -/
theorem pctChanges_length (cl : List ℚ) :
    (pctChanges cl).length = cl.length - 1 := by
  cases cl with
  | nil => rfl
  | cons x r => simp [pctChanges]

/-- Along positive closes, every growth factor `1 + r` is positive. -/
theorem pctChanges_zip_pos : ∀ (l : List ℚ) (prev : ℚ), 0 < prev →
    (∀ x ∈ l, 0 < x) →
    ∀ r ∈ List.zipWith (fun a b => (a - b) / b) l (prev :: l), 0 < 1 + r
  | [], _, _, _, r, hr => absurd hr (List.not_mem_nil r)
  | y :: t, prev, hprev, hl, r, hr => by
      have hy : 0 < y := hl y (List.mem_cons_self y t)
      simp only [List.zipWith_cons_cons] at hr
      rcases List.mem_cons.mp hr with rfl | hr2
      · have hrw : 1 + (y - prev) / prev = y / prev := by
          field_simp
        rw [hrw]
        exact div_pos hy hprev
      · exact pctChanges_zip_pos t y hy
          (fun z hz => hl z (List.mem_cons_of_mem y hz)) r hr2

/-- Positive closes give positive growth factors on all daily returns. -/
theorem pctChanges_one_add_pos (cl : List ℚ) (h : ∀ x ∈ cl, 0 < x) :
    ∀ r ∈ pctChanges cl, 0 < 1 + r := by
  cases cl with
  | nil => intro r hr; exact absurd hr (List.not_mem_nil r)
  | cons x t =>
      exact pctChanges_zip_pos t x (h x (List.mem_cons_self x t))
        (fun z hz => h z (List.mem_cons_of_mem x hz))

/-- C8. For every price series (positive closes, as the data model
requires) with a non-empty daily-return series, the max drawdown returned
by `calculate_performance_metrics` is a plain value `q ≤ 0`, and `q = 0`
exactly when the equity curve is monotonically non-decreasing. -/
theorem max_drawdown_spec (sq : ℚ → ℚ) (data : List Bar)
    (hpos : ∀ b ∈ data, 0 < b.close) (hlen : 2 ≤ data.length) :
    ∃ q, (calculate_performance_metrics sq data).2.2 = FV.val q ∧ q ≤ 0 ∧
      (q = 0 ↔
        List.Chain' (· ≤ ·) (equityCurve (pctChanges (closes data)))) := by
  have hclpos : ∀ x ∈ closes data, 0 < x := by
    intro x hx
    obtain ⟨b, hb, rfl⟩ := List.mem_map.mp hx
    exact hpos b hb
  have hdpos := pctChanges_one_add_pos (closes data) hclpos
  have hmspos : ∀ x ∈ (pctChanges (closes data)).map (fun r => 1 + r), 0 < x := by
    intro x hx
    obtain ⟨r, hr, rfl⟩ := List.mem_map.mp hx
    exact hdpos r hr
  have hepos : ∀ y ∈ equityCurve (pctChanges (closes data)), 0 < y :=
    fun y hy => cumprodFrom_pos _ 1 one_pos hmspos y hy
  have helen : (equityCurve (pctChanges (closes data))).length = data.length - 1 := by
    rw [equityCurve, cumprodFrom_length, List.length_map, pctChanges_length]
    simp [closes]
  rcases he : equityCurve (pctChanges (closes data)) with _ | ⟨x, l2⟩
  · rw [he] at helen
    simp at helen
    omega
  · have hx : 0 < x := hepos x (by rw [he]; exact List.mem_cons_self x l2)
    have hl2 : ∀ z ∈ l2, 0 < z :=
      fun z hz => hepos z (by rw [he]; exact List.mem_cons_of_mem x hz)
    set rest := List.zipWith (fun e r => (e - r) / r) l2 (cummaxFrom x l2)
      with hrest
    have hdd : List.zipWith (fun e r => (e - r) / r)
        (equityCurve (pctChanges (closes data)))
        (cummax (equityCurve (pctChanges (closes data)))) = 0 :: rest := by
      rw [he]
      simp only [cummax, List.zipWith_cons_cons, sub_self, zero_div, hrest]
    set q : ℚ := (listMin rest).elim 0 (min 0) with hq
    have hminEq : listMin (0 :: rest) = some q := rfl
    have hddle : ∀ d ∈ (0 : ℚ) :: rest, d ≤ 0 := by
      intro d hd
      rcases List.mem_cons.mp hd with rfl | hd2
      · exact le_refl 0
      · exact drawdown_nonpos l2 x hx hl2 d hd2
    have hqle : q ≤ 0 := hddle q (listMin_mem _ q hminEq)
    have hchainIff : q = 0 ↔ List.Chain (· ≤ ·) x l2 := by
      constructor
      · intro hq0
        refine (drawdown_zero_iff_chain l2 x hx hl2).mp ?_
        intro d hd
        exact le_antisymm (hddle d (List.mem_cons_of_mem 0 hd))
          (hq0 ▸ listMin_le _ q hminEq d (List.mem_cons_of_mem 0 hd))
      · intro hchain
        have hz := (drawdown_zero_iff_chain l2 x hx hl2).mpr hchain
        rcases List.mem_cons.mp (listMin_mem _ q hminEq) with hq0 | hqm
        · exact hq0
        · exact hz q hqm
    refine ⟨q * 100, ?_, ?_, ?_⟩
    · simp only [calculate_performance_metrics, hdd, hminEq]
    · exact mul_nonpos_iff.mpr (Or.inr ⟨hqle, by norm_num⟩)
    · have h100 : q * 100 = 0 ↔ q = 0 := by
        constructor
        · intro h
          rcases mul_eq_zero.mp h with h | h
          · exact h
          · norm_num at h
        · intro h
          rw [h, zero_mul]
      rw [h100]
      exact hchainIff

/-- Witness for C8: the rising two-bar series with closes `[1, 2]` has a
single, zero drawdown, so the theorem applies and yields the stated
nonpositive value with its monotonicity characterisation. -/
theorem max_drawdown_spec_witness :
    ∃ q, (calculate_performance_metrics sqZero [⟨0, 1⟩, ⟨1, 2⟩]).2.2 = FV.val q ∧
      q ≤ 0 ∧
      (q = 0 ↔
        List.Chain' (· ≤ ·) (equityCurve (pctChanges (closes [⟨0, 1⟩, ⟨1, 2⟩])))) :=
  max_drawdown_spec sqZero [⟨0, 1⟩, ⟨1, 2⟩]
    (by rintro b hb; simp [List.mem_cons] at hb; rcases hb with rfl | rfl <;> norm_num)
    (by norm_num)

/-- The positions column has one entry per signal entry. -/
theorem diffI_length (s : List Int) : (diffI s).length = s.length := by
  cases s with
  | nil => rfl
  | cons x r => simp [diffI]

/-- Inserting into a log grows it by one entry. -/
theorem insertTrade_length (t : Trade) : ∀ (l : List Trade),
    (insertTrade t l).length = l.length + 1
  | [] => rfl
  | h :: r => by
      simp only [insertTrade]
      by_cases hc : t.date ≤ h.date
      · rw [if_pos hc]
        rfl
      · rw [if_neg hc]
        simp [insertTrade_length t r]

/-- Sorting preserves the number of log entries. -/
theorem sortTradeLog_length : ∀ (l : List Trade),
    (sortTradeLog l).length = l.length
  | [] => rfl
  | t :: r => by
      simp [sortTradeLog, insertTrade_length, sortTradeLog_length r]

/-- The trade log of the shared pipeline, in both return branches. -/
theorem runPosStrategy_log (vb vs : Int) (data : List Bar) (s : List Int) :
    (runPosStrategy vb vs data s).2.2 =
      sortTradeLog (mkTrades Action.BUY data (signalIdxs vb (diffI s)) ++
        mkTrades Action.SELL data (signalIdxs vs (diffI s))) := by
  simp only [runPosStrategy]
  by_cases hc : signalIdxs vb (diffI s) = [] ∨ signalIdxs vs (diffI s) = []
  · rw [if_pos hc]
  · rw [if_neg hc]

/-- Counting a predicate on the values of an enumerated list. -/
theorem countP_enumFrom_snd {α : Type} (p : α → Bool) :
    ∀ (l : List α) (k : Nat),
    (List.enumFrom k l).countP (fun q => p q.2) = l.countP p
  | [], _ => rfl
  | x :: r, k => by
      simp only [List.enumFrom_cons, List.countP_cons,
        countP_enumFrom_snd p r (k + 1)]

/-- The number of extracted indices is the number of matching positions
entries. -/
theorem signalIdxs_length (v : Int) (ps : List (Option Int)) :
    (signalIdxs v ps).length = ps.countP (fun o => decide (o = some v)) := by
  rw [signalIdxs, List.length_map, ← List.countP_eq_length_filter, List.enum]
  exact countP_enumFrom_snd (fun o => decide (o = some v)) ps 0

/-- Counts of mutually exclusive predicates add to the count of their
disjunction. -/
theorem countP_disjoint_add {α : Type} (p q : α → Bool) :
    ∀ (l : List α), (∀ x ∈ l, ¬(p x = true ∧ q x = true)) →
    l.countP p + l.countP q = l.countP (fun x => p x || q x)
  | [], _ => rfl
  | x :: r, h => by
      have hr := countP_disjoint_add p q r
        (fun z hz => h z (List.mem_cons_of_mem x hz))
      have hx := h x (List.mem_cons_self x r)
      simp only [List.countP_cons]
      by_cases hp : p x = true
      · have hq : ¬ q x = true := fun hq => hx ⟨hp, hq⟩
        simp [hp, hq, ← hr]
        omega
      · by_cases hq : q x = true
        · simp [hp, hq, ← hr]
          omega
        · simp [hp, hq, ← hr]

/-- Counting entries of a list equals counting indices of its range. -/
theorem countP_range_getD {α : Type} (d : α) :
    ∀ (ps : List α) (p : α → Bool),
    ps.countP p = (List.range ps.length).countP (fun i => p (ps.getD i d))
  | [], _ => rfl
  | x :: t, p => by
      have hrec := countP_range_getD d t p
      simp only [List.length_cons, List.range_succ_eq_map, List.countP_cons,
        List.countP_map, List.getD_cons_zero, List.getD_cons_succ,
        Function.comp_def]
      rw [hrec]

/-- With the window at least the series length, the slice assignment is
empty and the signal stays all-zero. -/
theorem macSignal_of_le (sw lw : Nat) (cl : List ℚ) (h : cl.length ≤ sw) :
    macSignal sw lw cl = List.replicate cl.length 0 := by
  simp only [macSignal]
  rw [List.take_replicate, List.drop_eq_nil_of_le (by simp; omega),
    List.append_nil]
  congr 1
  omega

/-- `getD` of a constant-zero signal is zero. -/
theorem getD_replicate_zero (n i : Nat) :
    (List.replicate n (0 : Int)).getD i 0 = 0 := by
  rw [List.getD_eq_getElem?_getD, List.getElem?_replicate]
  by_cases hi : i < n
  · rw [if_pos hi]
    rfl
  · rw [if_neg hi]
    rfl

/-- C9 (amended).  For `moving_average_crossover`, the number of BUY plus
SELL entries in the trade log equals the number of indices `i ≥ 1` at which
the signal series — `0` before `short_window`, the comparison bit from
`short_window` on — differs from its value at `i - 1`.  (This equals the
sign-change count of `short_ma > long_ma` over `[short_window, n)` plus one
initial BUY when the comparison already holds at `short_window`, and it is
not in general the plain sign-change count of the comparison series, in
either reading of that phrase; see the counterexample.)  And whenever
`short_window ≥` the series length, the trade log is empty and the return
is `0`. -/
theorem mac_trade_count_spec (sw lw : Nat) (data : List Bar) :
    ((moving_average_crossover sw lw data).2.2.length =
      (List.range (macSignal sw lw (closes data)).length).countP
        (fun i => decide (1 ≤ i) &&
          decide ((macSignal sw lw (closes data)).getD i 0 ≠
            (macSignal sw lw (closes data)).getD (i - 1) 0))) ∧
    (data.length ≤ sw →
      (moving_average_crossover sw lw data).2.2 = [] ∧
      (moving_average_crossover sw lw data).1 = 0) := by
  constructor
  · set s := macSignal sw lw (closes data) with hs
    have hlog := runPosStrategy_log 1 (-1) data s
    rw [moving_average_crossover] at *
    rw [hlog, sortTradeLog_length, List.length_append, mkTrades,
      List.length_map, mkTrades, List.length_map, signalIdxs_length,
      signalIdxs_length]
    rw [countP_disjoint_add _ _ (diffI s) (by
      intro o ho hcontra
      obtain ⟨h1, h2⟩ := hcontra
      simp only [decide_eq_true_eq] at h1 h2
      rw [h1] at h2
      simp at h2)]
    rw [countP_range_getD none (diffI s), diffI_length]
    refine List.countP_congr ?_
    intro i hi
    have hin : i < s.length := List.mem_range.mp hi
    have hget : (diffI s).getD i none = if i = 0 then none
        else some (s.getD i 0 - s.getD (i - 1) 0) := by
      rw [List.getD_eq_getElem?_getD, diffI_getElem?, if_pos hin]
      by_cases h0 : i = 0
      · rw [if_pos h0, if_pos h0]
        rfl
      · rw [if_neg h0, if_neg h0]
        rfl
    by_cases h0 : i = 0
    · subst h0
      rw [hget]
      simp
    · rw [hget, if_neg h0]
      have hv1 := macSignal_mem_range sw lw (closes data) (s.getD i 0)
        (getD_mem_of_lt s i 0 hin)
      have hv2 := macSignal_mem_range sw lw (closes data) (s.getD (i - 1) 0)
        (getD_mem_of_lt s (i - 1) 0 (by omega))
      simp only [Option.some.injEq, Bool.or_eq_true, decide_eq_true_eq,
        Bool.and_eq_true, ne_eq]
      constructor
      · intro h
        exact ⟨by omega, by omega⟩
      · intro ⟨hge, hne⟩
        omega
  · intro hle
    have hz : macSignal sw lw (closes data) = List.replicate data.length 0 := by
      have hcl : (closes data).length = data.length := by simp [closes]
      rw [macSignal_of_le sw lw (closes data) (by omega), hcl]
    have hempty : ∀ v : Int, v ≠ 0 →
        signalIdxs v (diffI (macSignal sw lw (closes data))) = [] := by
      intro v hv
      rw [List.eq_nil_iff_forall_not_mem]
      intro i hmem
      obtain ⟨h1, h2, h3⟩ :=
        (mem_signalIdxs_diffI v (macSignal sw lw (closes data)) i).mp hmem
      rw [hz, getD_replicate_zero, getD_replicate_zero] at h3
      omega
    have hmac := runPosStrategy_of_nil 1 (-1) data (macSignal sw lw (closes data))
      (hempty 1 (by norm_num)) (hempty (-1) (by norm_num))
    rw [moving_average_crossover, hmac]
    exact ⟨rfl, rfl⟩

/-- Counterexample to C9 as stated: on closes `[1, 2, 3]` with windows 1/2
the log has one entry while `short_ma > long_ma` never flips within
`[short_window, n)` (the inner-window reading of the count), and on closes
`[3, 1, 1]` with windows 2/1 the log is empty while the comparison series
flips once from index `short_window` on measured against its previous row
(the other reading).  The code counts against a forced `0` before
`short_window` instead. -/
theorem mac_trade_count_counterexample :
    ((moving_average_crossover 1 2 [⟨0, 1⟩, ⟨1, 2⟩, ⟨2, 3⟩]).2.2.length = 1 ∧
     maGtChangesWithin 1 2 (closes [⟨0, 1⟩, ⟨1, 2⟩, ⟨2, 3⟩]) = 0) ∧
    ((moving_average_crossover 2 1 [⟨0, 3⟩, ⟨1, 1⟩, ⟨2, 1⟩]).2.2.length = 0 ∧
     maGtChangesFrom 2 1 (closes [⟨0, 3⟩, ⟨1, 1⟩, ⟨2, 1⟩]) = 1) := by
  refine ⟨⟨?_, ?_⟩, ⟨?_, ?_⟩⟩
  · norm_num [moving_average_crossover, runPosStrategy, macSignal, rollingMean,
      optGt, optAt, closes, diffI, signalIdxs, mkTrades, sortTradeLog, insertTrade,
      barAt, List.enum, List.enumFrom, show List.range 3 = [0, 1, 2] from rfl]
    simp
  · norm_num [maGtChangesWithin, maGt, rollingMean, optGt, optAt, closes,
      List.countP_cons, List.countP_nil, show List.range 3 = [0, 1, 2] from rfl]
  · norm_num [moving_average_crossover, runPosStrategy, macSignal, rollingMean,
      optGt, optAt, closes, diffI, signalIdxs, mkTrades, sortTradeLog, insertTrade,
      barAt, List.enum, List.enumFrom, show List.range 3 = [0, 1, 2] from rfl]
    simp
  · norm_num [maGtChangesFrom, maGt, rollingMean, optGt, optAt, closes,
      List.countP_cons, List.countP_nil, show List.range 3 = [0, 1, 2] from rfl]

/-- Witness for C9 (amended): with `short_window = 5` at least the length 3
of the series, the log is empty and the return is `0`. -/
theorem mac_trade_count_spec_witness :
    (moving_average_crossover 5 2 [⟨0, 1⟩, ⟨1, 2⟩, ⟨2, 3⟩]).2.2 = [] ∧
    (moving_average_crossover 5 2 [⟨0, 1⟩, ⟨1, 2⟩, ⟨2, 3⟩]).1 = 0 :=
  (mac_trade_count_spec 5 2 [⟨0, 1⟩, ⟨1, 2⟩, ⟨2, 3⟩]).2 (by norm_num)

/-- The filtered enumeration of the positions tail is the index walk. -/
theorem enumFrom_filter_diff (v : Int) : ∀ (r : List Int) (x : Int) (i : Nat),
    ((List.enumFrom i (List.zipWith (fun a b => some (a - b)) r (x :: r))).filter
      (fun p => p.2 = some v)).map Prod.fst = idxWalk v x i r
  | [], _, _ => rfl
  | y :: t, x, i => by
      have ih := enumFrom_filter_diff v t y (i + 1)
      simp only [List.zipWith_cons_cons, List.enumFrom_cons, List.filter_cons]
      by_cases hc : y - x = v
      · simp [hc, idxWalk, ih]
      · simp [hc, idxWalk, ih]

/-- The extracted signal indices of a nonempty signal are the index walk
over its tail, starting at position 1 with the head as previous value. -/
theorem signalIdxs_diffI_cons (v x : Int) (r : List Int) :
    signalIdxs v (diffI (x :: r)) = idxWalk v x 1 r := by
  simp only [signalIdxs, diffI, List.enum, List.enumFrom_cons, List.filter_cons]
  rw [if_neg (by simp)]
  exact enumFrom_filter_diff v r x 1

/-- Logging trades at the walked indices is the chronological one-action
walk over the remaining bars zipped with the signal tail. -/
theorem mkTrades_idxWalk (a : Action) (v : Int) (data : List Bar) :
    ∀ (r : List Int) (x : Int) (i : Nat), i + r.length ≤ data.length →
    mkTrades a data (idxWalk v x i r) = walkOne a v x ((data.drop i).zip r)
  | [], _, _, _ => by simp [idxWalk, mkTrades, walkOne, List.zip_nil_right]
  | y :: t, x, i, h => by
      have hi : i < data.length := by
        simp only [List.length_cons] at h
        omega
      have hih := mkTrades_idxWalk a v data t y (i + 1) (by
        simp only [List.length_cons] at h
        omega)
      have hbar : barAt data i = data[i] := by
        rw [barAt, List.getD_eq_getElem?_getD, List.getElem?_eq_getElem hi]
        rfl
      have hih2 := hih
      simp only [mkTrades] at hih2
      rw [List.drop_eq_getElem_cons hi]
      simp only [idxWalk, walkOne, List.zip_cons_cons, mkTrades,
        List.map_append, hih2]
      by_cases hc : y - x = v
      · simp [hc, hbar, List.zip]
      · simp [hc, List.zip]

/-- Every trade emitted by the one-action walk carries the date of one of
the walked bars. -/
theorem walkOne_date_mem (a : Action) (v : Int) :
    ∀ (pairs : List (Bar × Int)) (prev : Int) (t : Trade),
    t ∈ walkOne a v prev pairs → t.date ∈ pairs.map (fun p => p.1.date)
  | [], _, t, ht => absurd ht (List.not_mem_nil t)
  | (b, x) :: rest, prev, t, ht => by
      simp only [walkOne] at ht
      rcases List.mem_append.mp ht with h1 | h2
      · by_cases hc : x - prev = v
        · rw [if_pos hc] at h1
          simp only [List.mem_singleton] at h1
          subst h1
          simp
        · rw [if_neg hc] at h1
          exact absurd h1 (List.not_mem_nil t)
      · simp only [List.map_cons, List.mem_cons]
        exact Or.inr (walkOne_date_mem a v rest x t h2)

/-- Merging with an empty right run gives back the left run. -/
theorem mergeT_nil_right : ∀ (xs : List Trade), mergeT xs [] = xs
  | [] => by simp [mergeT]
  | x :: xs => by simp [mergeT]

/-- Taking the left head first when it is minimal for the left run and not
later than everything on the right. -/
theorem mergeT_cons_left (x : Trade) (xs : List Trade) (ys : List Trade)
    (h : ∀ t ∈ ys, x.date ≤ t.date) :
    mergeT (x :: xs) ys = x :: mergeT xs ys := by
  cases ys with
  | nil => rw [mergeT_nil_right, mergeT_nil_right]
  | cons y ys2 =>
      rw [mergeT]
      rw [if_pos (h y (List.mem_cons_self y ys2))]

/-- Taking the right head first when it is strictly earlier than everything
on the left. -/
theorem mergeT_cons_right (y : Trade) (ys : List Trade) (xs : List Trade)
    (h : ∀ t ∈ xs, y.date < t.date) :
    mergeT xs (y :: ys) = y :: mergeT xs ys := by
  cases xs with
  | nil => simp [mergeT]
  | cons t ts =>
      rw [mergeT]
      rw [if_neg (by
        have := h t (List.mem_cons_self t ts)
        omega)]

/-- Merging the one-action BUY and SELL walks over strictly
date-increasing bars interleaves them back into the combined chronological
walk. -/
theorem mergeT_walkOne : ∀ (pairs : List (Bar × Int)) (prev : Int),
    List.Pairwise (· < ·) (pairs.map fun p => p.1.date) →
    mergeT (walkOne Action.BUY 1 prev pairs)
      (walkOne Action.SELL (-1) prev pairs) = walkTrades prev pairs
  | [], _, _ => by simp [walkOne, walkTrades, mergeT]
  | (b, x) :: rest, prev, hpw => by
      rw [List.map_cons, List.pairwise_cons] at hpw
      obtain ⟨hhead, htail⟩ := hpw
      have ih := mergeT_walkOne rest x htail
      simp only [walkOne, walkTrades]
      by_cases h1 : x - prev = 1
      · have h2 : ¬ x - prev = -1 := by omega
        simp only [if_pos h1, if_neg h2, List.singleton_append, List.nil_append]
        rw [mergeT_cons_left _ _ _ (by
          intro t ht
          exact le_of_lt (hhead t.date
            (walkOne_date_mem Action.SELL (-1) rest x t ht))), ih]
      · by_cases h2 : x - prev = -1
        · simp only [if_neg h1, if_pos h2, List.singleton_append,
            List.nil_append]
          rw [mergeT_cons_right _ _ _ (by
            intro t ht
            exact hhead t.date
              (walkOne_date_mem Action.BUY 1 rest x t ht)), ih]
        · simp only [if_neg h1, if_neg h2, List.nil_append]
          exact ih

/-- An already date-sorted log is a fixed point of the sort. -/
theorem sortTradeLog_sorted : ∀ (l : List Trade),
    List.Pairwise (fun s t : Trade => s.date ≤ t.date) l →
    sortTradeLog l = l
  | [] , _ => rfl
  | t :: r, h => by
      rw [List.pairwise_cons] at h
      obtain ⟨hhead, htail⟩ := h
      rw [sortTradeLog, sortTradeLog_sorted r htail]
      cases r with
      | nil => rfl
      | cons u r2 =>
          rw [insertTrade, if_pos (hhead u (List.mem_cons_self u r2))]

/-- Inserting an element not later than the whole left run into a merge
prepends it to the merge. -/
theorem insertTrade_mergeT (x : Trade) : ∀ (ys xs : List Trade),
    (∀ t ∈ xs, x.date ≤ t.date) →
    insertTrade x (mergeT xs ys) = mergeT (x :: xs) ys
  | [], xs, h => by
      cases xs with
      | nil => simp [mergeT, insertTrade]
      | cons u us =>
          simp only [mergeT]
          rw [insertTrade, if_pos (h u (List.mem_cons_self u us))]
  | y :: ys2, xs, h => by
      cases xs with
      | nil =>
          simp only [mergeT]
          by_cases hxy : x.date ≤ y.date
          · rw [if_pos hxy, insertTrade, if_pos hxy]
          · rw [if_neg hxy, insertTrade, if_neg hxy]
            have := insertTrade_mergeT x ys2 [] (by intro t ht; cases ht)
            simp only [mergeT] at this
            rw [this]
      | cons u us =>
          have hxu : x.date ≤ u.date := h u (List.mem_cons_self u us)
          by_cases huy : u.date ≤ y.date
          · rw [mergeT, if_pos huy, insertTrade, if_pos hxu,
              mergeT, if_pos (le_trans hxu huy), mergeT, if_pos huy]
          · rw [mergeT, if_neg huy, insertTrade]
            by_cases hxy : x.date ≤ y.date
            · rw [if_pos hxy, mergeT, if_pos hxy, mergeT, if_neg huy]
            · rw [if_neg hxy, insertTrade_mergeT x ys2 (u :: us) h,
                mergeT, if_neg hxy]

/-- A stable insertion sort of two concatenated date-sorted runs is their
merge. -/
theorem sortTradeLog_append_merge : ∀ (xs ys : List Trade),
    List.Pairwise (fun s t : Trade => s.date ≤ t.date) xs →
    List.Pairwise (fun s t : Trade => s.date ≤ t.date) ys →
    sortTradeLog (xs ++ ys) = mergeT xs ys
  | [], ys, _, hys => by
      rw [List.nil_append, sortTradeLog_sorted ys hys, mergeT]
  | x :: xs2, ys, hxs, hys => by
      rw [List.pairwise_cons] at hxs
      obtain ⟨hhead, htail⟩ := hxs
      rw [List.cons_append, sortTradeLog,
        sortTradeLog_append_merge xs2 ys htail hys,
        insertTrade_mergeT x ys xs2 hhead]

/-- Enumerated positions carry strictly increasing indices. -/
theorem pairwise_fst_lt_enumFrom {α : Type} : ∀ (l : List α) (k : Nat),
    List.Pairwise (fun a b : Nat × α => a.1 < b.1) (List.enumFrom k l)
  | [], _ => List.Pairwise.nil
  | x :: t, k => by
      rw [List.enumFrom_cons, List.pairwise_cons]
      refine ⟨?_, pairwise_fst_lt_enumFrom t (k + 1)⟩
      intro q hq
      have := List.mem_enumFrom hq
      omega

/-- Extracted signal indices are strictly increasing. -/
theorem pairwise_lt_signalIdxs (v : Int) (ps : List (Option Int)) :
    List.Pairwise (· < ·) (signalIdxs v ps) := by
  rw [signalIdxs]
  exact ((pairwise_fst_lt_enumFrom ps 0).filter _).map Prod.fst (fun a b h => h)

/-- Extracted signal indices are in range. -/
theorem signalIdxs_lt_length (v : Int) (ps : List (Option Int)) (i : Nat)
    (h : i ∈ signalIdxs v ps) : i < ps.length := by
  by_contra hn
  rw [mem_signalIdxs, List.getElem?_eq_none (by omega)] at h
  exact Option.noConfusion h

/-- In-range row lookup is list indexing. -/
theorem barAt_eq_getElem (data : List Bar) (i : Nat) (h : i < data.length) :
    barAt data i = data[i] := by
  rw [barAt, List.getD_eq_getElem?_getD, List.getElem?_eq_getElem h]
  rfl

/-- Over strictly date-increasing bars, the log entries of an
index-increasing extraction are date-sorted. -/
theorem mkTrades_sorted (a : Action) (data : List Bar) (idxs : List Nat)
    (hpw : List.Pairwise (· < ·) idxs)
    (hlt : ∀ i ∈ idxs, i < data.length)
    (hdates : List.Pairwise (fun p q : Bar => p.date < q.date) data) :
    List.Pairwise (fun s t : Trade => s.date ≤ t.date) (mkTrades a data idxs) := by
  rw [mkTrades, List.pairwise_map]
  refine hpw.imp_of_mem ?_
  intro i j hi hj hij
  have hilt := hlt i hi
  have hjlt := hlt j hj
  have := List.pairwise_iff_get.mp hdates ⟨i, hilt⟩ ⟨j, hjlt⟩ hij
  rw [List.get_eq_getElem, List.get_eq_getElem] at this
  rw [barAt_eq_getElem data i hilt, barAt_eq_getElem data j hjlt]
  exact le_of_lt this

/-- The chronological walk over a 0/1-valued signal alternates: starting
flat it begins with a BUY, starting long it begins with a SELL. -/
theorem walkTrades_alternates : ∀ (pairs : List (Bar × Int)),
    (∀ p ∈ pairs, p.2 = 0 ∨ p.2 = 1) → ∀ prev : Int,
    (prev = 0 → alternatesFrom Action.BUY (walkTrades prev pairs) = true) ∧
    (prev = 1 → alternatesFrom Action.SELL (walkTrades prev pairs) = true)
  | [], _, prev => by
      constructor <;> intro _ <;> rfl
  | (b, x) :: rest, hvals, prev => by
      have hx : x = 0 ∨ x = 1 := hvals (b, x) (List.mem_cons_self (b, x) rest)
      have ih := walkTrades_alternates rest
        (fun p hp => hvals p (List.mem_cons_of_mem (b, x) hp)) x
      constructor
      · intro hprev
        subst hprev
        rcases hx with rfl | rfl
        · simp only [walkTrades]
          norm_num
          exact ih.1 rfl
        · simp only [walkTrades]
          norm_num [alternatesFrom]
          exact ⟨rfl, ih.2 rfl⟩
      · intro hprev
        subst hprev
        rcases hx with rfl | rfl
        · simp only [walkTrades]
          norm_num [alternatesFrom]
          exact ⟨rfl, ih.1 rfl⟩
        · simp only [walkTrades]
          norm_num
          exact ih.2 rfl

/-- The derived boolean equality on actions agrees with equality. -/
theorem action_beq_iff (a b : Action) : (a == b) = true ↔ a = b := by
  cases a <;> cases b <;> decide

/-- An alternating log has balanced counts: equal, or one extra of the
action it starts with. -/
theorem alternates_counts : ∀ (l : List Trade),
    (alternatesFrom Action.BUY l = true →
      countAct Action.SELL l = countAct Action.BUY l ∨
      countAct Action.SELL l + 1 = countAct Action.BUY l) ∧
    (alternatesFrom Action.SELL l = true →
      countAct Action.BUY l = countAct Action.SELL l ∨
      countAct Action.BUY l + 1 = countAct Action.SELL l)
  | [] => ⟨fun _ => Or.inl rfl, fun _ => Or.inl rfl⟩
  | t :: r => by
      have ih := alternates_counts r
      constructor
      · intro h
        simp only [alternatesFrom, Bool.and_eq_true] at h
        obtain ⟨hact0, hrest⟩ := h
        have hact := (action_beq_iff _ _).mp hact0
        have hcounts := ih.2 hrest
        have hb : countAct Action.BUY (t :: r) = countAct Action.BUY r + 1 := by
          simp [countAct, List.countP_cons, hact,
            show (Action.BUY == Action.BUY) = true from rfl]
        have hsl : countAct Action.SELL (t :: r) = countAct Action.SELL r := by
          simp [countAct, List.countP_cons, hact,
            show (Action.BUY == Action.SELL) = false from rfl]
        rw [hb, hsl]
        omega
      · intro h
        simp only [alternatesFrom, Bool.and_eq_true] at h
        obtain ⟨hact0, hrest⟩ := h
        have hact := (action_beq_iff _ _).mp hact0
        have hcounts := ih.1 hrest
        have hb : countAct Action.BUY (t :: r) = countAct Action.BUY r := by
          simp [countAct, List.countP_cons, hact,
            show (Action.SELL == Action.BUY) = false from rfl]
        have hsl : countAct Action.SELL (t :: r) = countAct Action.SELL r + 1 := by
          simp [countAct, List.countP_cons, hact,
            show (Action.SELL == Action.SELL) = true from rfl]
        rw [hb, hsl]
        omega

/-- C10.  Because the MA-crossover signal takes only the values 0 and 1 and
is forced to 0 before `short_window`, on every series with strictly
increasing dates (the data model's invariant) the chronologically first
event of the trade log is a BUY, the events alternate BUY/SELL, and the
number of SELL events equals or is exactly one less than the number of BUY
events. -/
theorem mac_alternation_spec (sw lw : Nat) (data : List Bar) (hsw : 1 ≤ sw)
    (hdates : List.Pairwise (fun a b : Bar => a.date < b.date) data) :
    alternatesFrom Action.BUY (moving_average_crossover sw lw data).2.2 = true ∧
    (countAct Action.SELL (moving_average_crossover sw lw data).2.2 =
       countAct Action.BUY (moving_average_crossover sw lw data).2.2 ∨
     countAct Action.SELL (moving_average_crossover sw lw data).2.2 + 1 =
       countAct Action.BUY (moving_average_crossover sw lw data).2.2) := by
  rw [moving_average_crossover, runPosStrategy_log 1 (-1) data
    (macSignal sw lw (closes data))]
  have hslen : (macSignal sw lw (closes data)).length = data.length := by
    rw [macSignal_length]
    simp [closes]
  suffices hmain : alternatesFrom Action.BUY (sortTradeLog
      (mkTrades Action.BUY data
        (signalIdxs 1 (diffI (macSignal sw lw (closes data)))) ++
       mkTrades Action.SELL data
        (signalIdxs (-1) (diffI (macSignal sw lw (closes data)))))) = true by
    exact ⟨hmain, (alternates_counts _).1 hmain⟩
  rcases hsplit : macSignal sw lw (closes data) with _ | ⟨x0, r⟩
  · rfl
  · have hdata_len : data.length = r.length + 1 := by
      rw [← hslen, hsplit]
      rfl
    have hx0 : x0 = 0 := by
      have h0 := macSignal_getElem? sw lw (closes data) 0 (by
        simp only [closes, List.length_map]
        omega)
      rw [hsplit, if_pos (by omega)] at h0
      simpa using h0
    subst hx0
    have hdiffLen : (diffI ((0 : Int) :: r)).length = data.length := by
      rw [diffI_length]
      simp
      omega
    have hsortB : List.Pairwise (fun s t : Trade => s.date ≤ t.date)
        (mkTrades Action.BUY data (signalIdxs 1 (diffI ((0 : Int) :: r)))) :=
      mkTrades_sorted Action.BUY data _ (pairwise_lt_signalIdxs _ _)
        (fun i hi => hdiffLen ▸ signalIdxs_lt_length 1 _ i hi) hdates
    have hsortS : List.Pairwise (fun s t : Trade => s.date ≤ t.date)
        (mkTrades Action.SELL data (signalIdxs (-1) (diffI ((0 : Int) :: r)))) :=
      mkTrades_sorted Action.SELL data _ (pairwise_lt_signalIdxs _ _)
        (fun i hi => hdiffLen ▸ signalIdxs_lt_length (-1) _ i hi) hdates
    have hwalk : 1 + r.length ≤ data.length := by omega
    have hpairsdates : List.Pairwise (· < ·)
        (((data.drop 1).zip r).map fun p => p.1.date) := by
      have hfst : ((data.drop 1).zip r).map Prod.fst = data.drop 1 :=
        List.map_fst_zip _ _ (by simp; omega)
      have hcomp : (((data.drop 1).zip r).map fun p => p.1.date) =
          (((data.drop 1).zip r).map Prod.fst).map Bar.date := by
        rw [List.map_map]
        rfl
      rw [hcomp, hfst]
      exact (List.Pairwise.sublist (List.drop_sublist 1 data) hdates).map Bar.date
        (fun a b h => h)
    have hvals : ∀ p ∈ (data.drop 1).zip r, p.2 = 0 ∨ p.2 = 1 := by
      intro p hp
      have hmem : p.2 ∈ (0 : Int) :: r :=
        List.mem_cons_of_mem 0 (List.of_mem_zip hp).2
      rw [← hsplit] at hmem
      exact macSignal_mem_range sw lw (closes data) p.2 hmem
    rw [sortTradeLog_append_merge _ _ hsortB hsortS,
      signalIdxs_diffI_cons, signalIdxs_diffI_cons,
      mkTrades_idxWalk Action.BUY 1 data r 0 1 hwalk,
      mkTrades_idxWalk Action.SELL (-1) data r 0 1 hwalk,
      mergeT_walkOne _ 0 hpairsdates]
    exact (walkTrades_alternates _ hvals 0).1 rfl

/-- Witness for C10: on closes `[1, 2, 3]` with windows 1/2 the log is a
single BUY, which alternates starting with BUY and has one more BUY than
SELL. -/
theorem mac_alternation_spec_witness :
    alternatesFrom Action.BUY
      (moving_average_crossover 1 2 [⟨0, 1⟩, ⟨1, 2⟩, ⟨2, 3⟩]).2.2 = true ∧
    (countAct Action.SELL (moving_average_crossover 1 2 [⟨0, 1⟩, ⟨1, 2⟩, ⟨2, 3⟩]).2.2 =
       countAct Action.BUY (moving_average_crossover 1 2 [⟨0, 1⟩, ⟨1, 2⟩, ⟨2, 3⟩]).2.2 ∨
     countAct Action.SELL (moving_average_crossover 1 2 [⟨0, 1⟩, ⟨1, 2⟩, ⟨2, 3⟩]).2.2 + 1 =
       countAct Action.BUY (moving_average_crossover 1 2 [⟨0, 1⟩, ⟨1, 2⟩, ⟨2, 3⟩]).2.2) :=
  mac_alternation_spec 1 2 [⟨0, 1⟩, ⟨1, 2⟩, ⟨2, 3⟩] (by norm_num)
    (by norm_num [List.pairwise_cons])

/-- C1. For every price series of length ≥ 1, `buy_and_hold` returns
`(close[last] − close[first]) / close[first] × 100`, and its trade log is
exactly a BUY at the first bar followed by a SELL at the last bar; on a
length-1 series this degenerates to BUY and SELL on the same day with a 0%
return rather than an error. -/
theorem buy_and_hold_spec (data : List Bar) (h : data ≠ []) :
    buy_and_hold data =
      (((data.getLast h).close - (data.head h).close) / (data.head h).close * 100,
       [(data.head h).close, (data.getLast h).close],
       [⟨Action.BUY, (data.head h).date, (data.head h).close⟩,
        ⟨Action.SELL, (data.getLast h).date, (data.getLast h).close⟩]) ∧
    (data.length = 1 →
      (buy_and_hold data).1 = 0 ∧
      (buy_and_hold data).2.2 =
        [⟨Action.BUY, (data.head h).date, (data.head h).close⟩,
         ⟨Action.SELL, (data.head h).date, (data.head h).close⟩]) := by
  have hhead : data.headI = data.head h := headI_eq_head data h
  have hlast : data.getLastI = data.getLast h := getLastI_eq_getLast data h
  constructor
  · simp [buy_and_hold, hhead, hlast]
  · intro hlen
    have hle : data.getLast h = data.head h := by
      cases data with
      | nil => exact absurd rfl h
      | cons a t =>
        cases t with
        | nil => rfl
        | cons b t2 => simp at hlen
    constructor
    · simp [buy_and_hold, hhead, hlast, hle]
    · simp [buy_and_hold, hhead, hlast, hle]

/-- Witness for C1: the spec's end-to-end example, closes
`[100, 105, 103, 110, 108]` on days 0..4, gives an 8% return with trade log
`[BUY@100 day0, SELL@108 day4]`; and a length-1 series gives 0%. -/
theorem buy_and_hold_spec_witness :
    buy_and_hold [⟨0, 100⟩, ⟨1, 105⟩, ⟨2, 103⟩, ⟨3, 110⟩, ⟨4, 108⟩] =
      (8, [100, 108], [⟨Action.BUY, 0, 100⟩, ⟨Action.SELL, 4, 108⟩]) ∧
    (buy_and_hold [⟨7, 5⟩]).1 = 0 := by
  constructor
  · exact ((buy_and_hold_spec
      [⟨0, 100⟩, ⟨1, 105⟩, ⟨2, 103⟩, ⟨3, 110⟩, ⟨4, 108⟩] (by decide)).1).trans
      (by norm_num)
  · exact ((buy_and_hold_spec [⟨7, 5⟩] (by decide)).2 (by decide)).1

end Backtest
